import Mathlib

/-!
# Verification of the sliding-window inference and merge engine

Shallow embedding of the tokenization-repair engine found in
`src/trt/api/__init__.py` (class `TokenizationRepairer`): window planning,
batch scheduling, result merging, and output rendering.  Python strings are
modelled as `List Char`, Python lists as `List`, numpy integer arrays as
`List Int`, float arrays as `List Rat` (the engine only moves logit and
log-probability values around and attaches `0` markers, it never computes
with them), and Python exceptions (failed `assert`s, `IndexError`,
`AttributeError`, `ValueError`) as `none : Option _`.

The neural model itself, the tokenizer, and the alignment matcher
(`match_token_ids_ignoring_space_and_unk`) are external collaborators of the
code under verification and are kept as parameters; functions of the
repository that are only *called* here (their definitions are not part of
the provided sources) are modelled from the specification and marked as such
in their doc comments.
-/

/-- Python `str` modelled as a list of characters. -/
abbrev Str := List Char

/-- Python `s.replace(" ", "")`: remove exactly the space characters. -/
def stripSpaces (s : Str) : Str := s.filter (fun c => c ≠ ' ')

/-- Python slice `l[a:b]` for non-negative bounds: clipped at the list
length, empty when `a ≥ b`. -/
def pySlice {α : Type*} (l : List α) (a b : Nat) : List α := (l.take b).drop a

/-- Python slice `l[1:-1]`: strip the first and the last element. -/
def sliceMid {α : Type*} (l : List α) : List α := (l.drop 1).dropLast

/-- numpy slice assignment `buf[start:stop] = vals` (1-d, non-negative
clipped bounds): shapes must agree, except that a length-1 value list is
broadcast over the slice; any other mismatch raises (`none`). -/
def npSetSlice {α : Type*} (buf : List α) (start stop : Nat) (vals : List α) :
    Option (List α) :=
  let s := min start buf.length
  let e := max (min stop buf.length) s
  if vals.length = e - s then
    some (buf.take s ++ vals ++ buf.drop e)
  else
    match vals with
    | [v] => some (buf.take s ++ List.replicate (e - s) v ++ buf.drop e)
    | _ => none

/-- `inference.SequenceClassificationInferenceResult`: per-position class
labels and per-position logit rows (both include the two marker
positions). -/
structure SequenceClassificationInferenceResult where
  predictions : List Int
  logits : List (List Rat)
deriving DecidableEq

/-- `inference.SequenceGenerationInferenceResult`: decoded token ids and
per-token log probabilities (both include the begin/end markers). -/
structure SequenceGenerationInferenceResult where
  token_ids : List Nat
  token_log_probabilities : List Rat
deriving DecidableEq

/-- What the inference adapter may return for one window: a classification
result, a generation result, or a ranked beam-search list of generation
results. -/
inductive AdapterResult where
  | cls (r : SequenceClassificationInferenceResult)
  | gen (r : SequenceGenerationInferenceResult)
  | genBeams (rs : List SequenceGenerationInferenceResult)
deriving DecidableEq

/-- A merged result handed to the output renderer (`inference.InferenceResult`). -/
inductive InferenceResult where
  | cls (r : SequenceClassificationInferenceResult)
  | gen (r : SequenceGenerationInferenceResult)
deriving DecidableEq

/-- Modelled from the spec: `sliding_windows` (`trt/api/utils`, whose
definition is not among the provided sources; only its call sites are).
Spec §4.1: consecutive window starts are spaced by `window_size`, the core
regions tile `[0, input_length)` left to right, the last core may be
shorter, no zero-length core is emitted, and an empty input yields a single
trivial window of length 0. -/
def sliding_windows (inputLength windowSize : Nat) : List Nat :=
  if inputLength = 0 then [0]
  else (List.range ((inputLength + windowSize - 1) / windowSize)).map (· * windowSize)

/-- `self.window_size = math.ceil(0.75 * self.max_length)` (the float
arithmetic is exact for any realistic `max_length`). -/
def windowSizeOf (maxLength : Nat) : Nat := (3 * maxLength + 3) / 4

/-- `self.context_size = math.floor((self.max_length - self.window_size) / 2)`. -/
def contextSizeOf (maxLength : Nat) : Nat := (maxLength - windowSizeOf maxLength) / 2

/-- The core region `[start, min (start + windowSize) inputLength)` of each
planned window, as the list of covered positions. -/
def windowCores (inputLength windowSize : Nat) : List (List Nat) :=
  (sliding_windows inputLength windowSize).map
    (fun s => List.range' s (min (s + windowSize) inputLength - s))

/-- `predictions[1:-1][start_idx : start_idx + window_size]` with
`start_idx = 0` for the first window and `context_size` otherwise
(lines 208–209 of `_merge_inference_results`). -/
def strippedSlice (windowSize contextSize : Nat) (i : Nat) (l : List Int) : List Int :=
  pySlice (sliceMid l) (if i = 0 then 0 else contextSize)
    ((if i = 0 then 0 else contextSize) + windowSize)

/-- The same stripped slice taken from the logit rows (line 210). -/
def strippedLogitsSlice (windowSize contextSize : Nat) (i : Nat) (l : List (List Rat)) :
    List (List Rat) :=
  pySlice (sliceMid l) (if i = 0 then 0 else contextSize)
    ((if i = 0 then 0 else contextSize) + windowSize)

/-- `len(inference_results[0].logits[0])` (line 206): number of classes read
off the first result's first logit row; `none` models the `IndexError` on an
empty list. -/
def numClassesOf (crs : List SequenceClassificationInferenceResult) : Option Nat :=
  match crs with
  | [] => none
  | r :: _ =>
    match r.logits with
    | [] => none
    | row :: _ => some row.length

/-- One iteration of the classification merge loop (lines 207–212): slice the
window's stripped predictions and logits and write them into the two buffers
at the window start. -/
def mergeStep (windowSize contextSize : Nat)
    (bufs : List Int × List (List Rat))
    (item : Nat × SequenceClassificationInferenceResult × Nat) :
    Option (List Int × List (List Rat)) :=
  let i := item.1
  let r := item.2.1
  let w := item.2.2
  match npSetSlice bufs.1 w (w + windowSize) (strippedSlice windowSize contextSize i r.predictions) with
  | none => none
  | some mp =>
    match npSetSlice bufs.2 w (w + windowSize) (strippedLogitsSlice windowSize contextSize i r.logits) with
    | none => none
    | some ml => some (mp, ml)

/-- The classification merge loop over `enumerate(zip(inference_results, windows))`. -/
def mergeFold (windowSize contextSize : Nat) :
    List Int × List (List Rat) → List (Nat × SequenceClassificationInferenceResult × Nat) →
    Option (List Int × List (List Rat))
  | bufs, [] => some bufs
  | bufs, it :: rest =>
    match mergeStep windowSize contextSize bufs it with
    | none => none
    | some bufs' => mergeFold windowSize contextSize bufs' rest

/-- Multi-window classification merge (lines 202–218) over an explicit list
of window starts: count check, sentinel-initialised buffers, per-window
writes, the `np.all(merged_predictions >= 0)` self-check, and re-attachment
of zero marker values at both ends. -/
def mergeClassificationWith (windowSize contextSize inputLength : Nat)
    (windows : List Nat) (crs : List SequenceClassificationInferenceResult) :
    Option SequenceClassificationInferenceResult :=
  if crs.length = windows.length then
    match numClassesOf crs with
    | none => none
    | some numClasses =>
      match mergeFold windowSize contextSize
          (List.replicate inputLength (-1), List.replicate inputLength (List.replicate numClasses 0))
          ((crs.zip windows).enum) with
      | none => none
      | some (mp, ml) =>
        if mp.all (fun v => 0 ≤ v) then
          some ⟨0 :: mp ++ [0],
                List.replicate numClasses 0 :: ml ++ [List.replicate numClasses 0]⟩
        else none
  else none

/-- Multi-window classification merge with the windows recomputed by the
planner, exactly as in the source (line 202). -/
def mergeClassification (windowSize contextSize : Nat)
    (crs : List SequenceClassificationInferenceResult) (input : Str) :
    Option SequenceClassificationInferenceResult :=
  mergeClassificationWith windowSize contextSize input.length
    (sliding_windows input.length windowSize) crs

/-- The character tokenizer interface used by the engine: `id_to_token`,
and the ids of the whitespace, unknown, begin and end tokens.  The
tokenizer itself is an external collaborator. -/
structure CharTok where
  idToToken : Nat → Str
  wsTokenId : Nat
  unkTokenId : Nat
  bosId : Nat
  eosId : Nat

/-- The alignment matcher `match_token_ids_ignoring_space_and_unk`
(external to the provided sources): given a window's decoded token stream
(markers stripped) and the left-context / core / right-context substrings of
the original input, produce the slice bounds of the core, or fail. -/
abbrev MatchFn := List Nat → Str → Str → Str → Option (Nat × Nat)

/-- One window of the generation merge loop (lines 232–250): context
substrings from the original input, the BOS/EOS assertion, the matcher call,
and the matched slices of token ids and log probabilities. -/
def windowPiece (matchFn : MatchFn) (tok : CharTok) (windowSize contextSize : Nat)
    (input : Str) (ir : SequenceGenerationInferenceResult) (window : Nat) :
    Option (List Nat × List Rat) :=
  let leftCtx := pySlice input (window - contextSize) window
  let core := pySlice input window (window + windowSize)
  let rightCtx := pySlice input (window + windowSize) (window + windowSize + contextSize)
  match ir.token_ids.head?, ir.token_ids.getLast? with
  | some b, some e =>
    if b = tok.bosId ∧ e = tok.eosId then
      match matchFn (sliceMid ir.token_ids) leftCtx core rightCtx with
      | some (fromIdx, toIdx) =>
        some (pySlice (sliceMid ir.token_ids) fromIdx toIdx,
              pySlice (sliceMid ir.token_log_probabilities) fromIdx toIdx)
      | none => none
    else none
  | _, _ => none

/-- Multi-window generation merge (lines 227–258) over an explicit window
list: count check, per-window matched core slices, concatenation, and the
final wrap with BOS/EOS markers carrying log probability `0`. -/
def mergeGenerationWith (matchFn : MatchFn) (tok : CharTok)
    (windowSize contextSize : Nat) (windows : List Nat)
    (grs : List SequenceGenerationInferenceResult) (input : Str) :
    Option SequenceGenerationInferenceResult :=
  if grs.length = windows.length then
    match (grs.zip windows).mapM
        (fun p => windowPiece matchFn tok windowSize contextSize input p.1 p.2) with
    | some pieces =>
      some ⟨tok.bosId :: (pieces.map Prod.fst).flatten ++ [tok.eosId],
            0 :: (pieces.map Prod.snd).flatten ++ [0]⟩
    | none => none
  else none

/-- `inference_results[0]` on each ranked beam list (line 223); an element
that is not a non-empty beam list fails (`none`). -/
def reduceBeams (rs : List AdapterResult) : Option (List AdapterResult) :=
  rs.mapM (fun r =>
    match r with
    | .genBeams (t :: _) => some (.gen t)
    | _ => none)

/-- The generation branch after beam reduction (lines 224–258): a single
result is returned unchanged, otherwise all results must be generation
results and are merged over the planner's windows. -/
def mergeGenerationReduced (matchFn : MatchFn) (tok : CharTok)
    (windowSize contextSize : Nat) (rs : List AdapterResult) (input : Str) :
    Option InferenceResult :=
  if rs.length = 1 then
    match rs with
    | [.gen g] => some (.gen g)
    | _ => none
  else
    match rs.mapM (fun r => match r with | .gen g => some g | _ => none) with
    | some grs =>
      (mergeGenerationWith matchFn tok windowSize contextSize
        (sliding_windows input.length windowSize) grs input).map .gen
    | none => none

/-- `TokenizationRepairer._merge_inference_results` (lines 182–258): branch
on the variant of the first result; classification results of a single
window are returned unchanged, several are merged positionally; generation
beam lists are first reduced to their top candidate, a single generation
result is returned unchanged, several are merged via the alignment
matcher. -/
def mergeInferenceResults (tok : CharTok) (matchFn : MatchFn)
    (windowSize contextSize : Nat) (rs : List AdapterResult) (input : Str) :
    Option InferenceResult :=
  match rs with
  | [] => none
  | r0 :: rest =>
    match r0 with
    | .cls r =>
      if rest.isEmpty then some (.cls r)
      else
        match rs.mapM (fun r => match r with | .cls c => some c | _ => none) with
        | some crs => (mergeClassification windowSize contextSize crs input).map .cls
        | none => none
    | .genBeams _ =>
      match reduceBeams rs with
      | some rs' => mergeGenerationReduced matchFn tok windowSize contextSize rs' input
      | none => none
    | .gen _ => mergeGenerationReduced matchFn tok windowSize contextSize rs input

/-- Number of non-whitespace tokens in a token-id list: the amount by which
the renderer's input pointer advances. -/
def countNonWs (tok : CharTok) (l : List Nat) : Nat :=
  (l.filter (fun t => t ≠ tok.wsTokenId)).length

/-- One token of the generation renderer loop (lines 277–286): a whitespace
token emits a space, the unknown token emits the next character of the
space-stripped input (failing like the Python `IndexError` when the pointer
is exhausted), any other token emits its decoded string; the pointer
advances on every non-whitespace token. -/
def renderToken (tok : CharTok) (noSp : Str) (ptr : Nat) (tid : Nat) :
    Option (Str × Nat) :=
  if tid = tok.wsTokenId then some ([' '], ptr)
  else if tid = tok.unkTokenId then
    match noSp[ptr]? with
    | some c => some ([c], ptr + 1)
    | none => none
  else some (tok.idToToken tid, ptr + 1)

/-- The renderer loop over the marker-stripped token stream, collecting the
emitted piece of every token. -/
def renderTokens (tok : CharTok) (noSp : Str) : Nat → List Nat → Option (List Str × Nat)
  | ptr, [] => some ([], ptr)
  | ptr, tid :: rest =>
    match renderToken tok noSp ptr tid with
    | none => none
    | some (piece, ptr') =>
      match renderTokens tok noSp ptr' rest with
      | none => none
      | some (pieces, ptrF) => some (piece :: pieces, ptrF)

/-- The generation branch of `_inference_result_to_str` (lines 273–293),
including its two final `assert`s: the pointer must have consumed the whole
space-stripped input and the space-stripped output must equal the
space-stripped input. -/
def renderGeneration (tok : CharTok) (ir : SequenceGenerationInferenceResult)
    (input : Str) : Option Str :=
  let noSp := stripSpaces input
  match renderTokens tok noSp 0 (sliceMid ir.token_ids) with
  | none => none
  | some (pieces, ptr) =>
    let out := pieces.flatten
    if ptr = noSp.length ∧ stripSpaces out = noSp then some out else none

/-- Modelled from the spec: `tokenization_repair.repair_whitespace`
(`trt/utils`, not among the provided sources).  Spec §4.6: "apply each
per-character label as a whitespace-insert/keep/delete instruction against
the original string" — label 1 inserts a space before the character, label 2
deletes the character when it is a space, any other label keeps it. -/
def repair_whitespace (input : Str) (labels : List Int) : Str :=
  (input.zip labels).flatMap (fun p =>
    if p.2 = 1 then [' ', p.1]
    else if p.2 = 2 then (if p.1 = ' ' then [] else [p.1])
    else [p.1])

/-- `TokenizationRepairer._inference_result_to_str` (lines 260–293). -/
def inferenceResultToStr (tok : CharTok) (ir : InferenceResult) (input : Str) :
    Option Str :=
  match ir with
  | .cls r => some (repair_whitespace input (sliceMid r.predictions))
  | .gen r => renderGeneration tok r input

/-- A batch entry `(input_idx, from_, to_, i)` built in `_repair_text_raw`
(lines 308–322). -/
structure BatchEntry where
  inputIdx : Nat
  fromIdx : Nat
  toIdx : Nat
  position : Nat
deriving DecidableEq

/-- The window plan of one input (lines 308–322): a single full-input entry
when the input fits into the model context, otherwise one entry per sliding
window, expanded by the clipped left/right context. -/
def planInput (maxLength windowSize contextSize : Nat) (inputIdx : Nat) (ipt : Str) :
    List BatchEntry :=
  let length := ipt.length
  if length ≤ maxLength then [⟨inputIdx, 0, length, 0⟩]
  else
    (sliding_windows length windowSize).enum.map (fun p =>
      ⟨inputIdx, p.2 - contextSize, min length (p.2 + windowSize + contextSize), p.1⟩)

/-- All batch entries of a run, in input order (the `batches` list before
the optional sort). -/
def allBatches (maxLength windowSize contextSize : Nat) (inputs : List Str) :
    List BatchEntry :=
  inputs.enum.flatMap (fun p => planInput maxLength windowSize contextSize p.1 p.2)

/-- A dynamically typed Python value, as far as the engine compares them. -/
inductive PyVal where
  | int (n : Nat)
  | str (s : Str)
deriving DecidableEq

/-- Python `==` across the value kinds the engine uses: values of different
types are never equal. -/
def pyEq : PyVal → PyVal → Bool
  | .int a, .int b => a = b
  | .str a, .str b => a = b
  | _, _ => false

/-- Python `x in t` for a tuple `t`: membership by `==`. -/
def pyIn (x : PyVal) (l : List PyVal) : Bool := l.any (pyEq x)

/-- The batch entry viewed as the Python tuple
`(input_idx, from_, to_, position)`. -/
def entryTupleVals (e : BatchEntry) : List PyVal :=
  [.int e.inputIdx, .int e.fromIdx, .int e.toIdx, .int e.position]

/-- `" " not in ipt` from line 352, where `ipt` ranges over the batch
*entries* (4-tuples), not the batch substrings. -/
def entryNoSpacesFlag (e : BatchEntry) : Bool :=
  ! pyIn (.str [' ']) (entryTupleVals e)

/-- `inputs[input_idx][from_:to_]` (lines 339–342). -/
def entrySeq (inputs : List Str) (e : BatchEntry) : Str :=
  pySlice (inputs.getD e.inputIdx []) e.fromIdx e.toIdx

/-- The two model types the constructor accepts (lines 122–176). -/
inductive ModelType where
  | encoderWithHead
  | transformer
deriving DecidableEq

/-- The per-entry task keyword argument handed to the adapter (lines
350–354): the `no_spaces` flag for classification models, the space-stripped
window text for generation models. -/
inductive AdapterKwargs where
  | noSpaces (b : Bool)
  | inputString (s : Str)
deriving DecidableEq

/-- Keyword argument computed for one batch entry. -/
def entryKwargs (mode : ModelType) (inputs : List Str) (e : BatchEntry) :
    AdapterKwargs :=
  match mode with
  | .encoderWithHead => .noSpaces (entryNoSpacesFlag e)
  | .transformer => .inputString (stripSpaces (entrySeq inputs e))

/-- The inference adapter (`self.model.inference`, an external collaborator):
deterministic and order-preserving, mapping each batch substring with its
keyword argument to one result. -/
abbrev Adapter := Str → AdapterKwargs → AdapterResult

/-- `all_inference_results`, keyed by `(input_idx, position)`. -/
abbrev ResultStore := Nat → Nat → Option AdapterResult

def emptyStore : ResultStore := fun _ _ => none

/-- `all_inference_results[input_idx][position] = inference_result`
(line 365). -/
def storeWrite (st : ResultStore) (idx pos : Nat) (r : AdapterResult) : ResultStore :=
  fun i p => if idx = i ∧ pos = p then some r else st i p

/-- Python `sorted(batches, key=lambda e: e[2] - e[1], reverse=True)`
(line 325), modelled by a stable insertion sort on the same key; the engine
never depends on the order among equal keys. -/
def pythonSorted (l : List BatchEntry) : List BatchEntry :=
  l.insertionSort (fun a b => b.toIdx - b.fromIdx ≤ a.toIdx - a.fromIdx)

/-- `batches[batch_idx : batch_idx + batch_size]` chunking of line 338 for a
positive batch size. -/
def chunkList {α : Type*} (n : Nat) : List α → List (List α)
  | [] => []
  | x :: xs => (x :: xs.take (n - 1)) :: chunkList n (xs.drop (n - 1))
termination_by l => l.length
decreasing_by simp [List.length_drop]; omega

/-- Dispatch one batch to the adapter and route the results back by
`(input_idx, position)` (lines 337–365). -/
def runBatch (mode : ModelType) (g : Adapter) (inputs : List Str)
    (st : ResultStore) (batch : List BatchEntry) : ResultStore :=
  let results := batch.map (fun e => g (entrySeq inputs e) (entryKwargs mode inputs e))
  (batch.zip results).foldl (fun st p => storeWrite st p.1.inputIdx p.1.position p.2) st

/-- Dispatch all batches in order. -/
def runBatches (mode : ModelType) (g : Adapter) (inputs : List Str)
    (st : ResultStore) (batches : List (List BatchEntry)) : ResultStore :=
  batches.foldl (runBatch mode g inputs) st

/-- The scheduled entry order: optionally sorted by substring length,
descending. -/
def orderedBatches (maxLength windowSize contextSize : Nat) (inputs : List Str)
    (sortByLength : Bool) : List BatchEntry :=
  if sortByLength then pythonSorted (allBatches maxLength windowSize contextSize inputs)
  else allBatches maxLength windowSize contextSize inputs

/-- The filled result store after the dispatch loop of `_repair_text_raw`. -/
def finalStore (mode : ModelType) (g : Adapter) (maxLength windowSize contextSize : Nat)
    (inputs : List Str) (batchSize : Nat) (sortByLength : Bool) : ResultStore :=
  runBatches mode g inputs emptyStore
    (chunkList batchSize (orderedBatches maxLength windowSize contextSize inputs sortByLength))

/-- Materialise `all_inference_results[idx]` from the store: the slots
`0 … count-1`, all of which must be filled. -/
def gatherInput (st : Nat → Option AdapterResult) : Nat → Option (List AdapterResult)
  | 0 => some []
  | n + 1 =>
    match gatherInput st n, st n with
    | some l, some r => some (l ++ [r])
    | _, _ => none

/-- `TokenizationRepairer._repair_text_raw` (lines 295–370): plan, schedule,
dispatch, route, and merge.  A zero batch size raises (`range` step error);
any failure inside merging aborts the whole call. -/
def repairTextRawMerged (mode : ModelType) (g : Adapter) (tok : CharTok)
    (matchFn : MatchFn) (maxLength windowSize contextSize : Nat)
    (inputs : List Str) (batchSize : Nat) (sortByLength : Bool) :
    Option (List InferenceResult) :=
  if batchSize = 0 then none
  else
    let st := finalStore mode g maxLength windowSize contextSize inputs batchSize sortByLength
    inputs.enum.mapM (fun p =>
      match gatherInput (st p.1) (planInput maxLength windowSize contextSize p.1 p.2).length with
      | some rs => mergeInferenceResults tok matchFn windowSize contextSize rs p.2
      | none => none)

/-- Modelled from the spec: `nlp.clean_sequence` (`trt/utils`, not among the
provided sources).  Per the call-site comment "clean inputs from leading,
trailing or multiple whitespaces": split into space-separated words and
re-join with single spaces. -/
def clean_sequence (s : Str) : Str :=
  List.intercalate [' ']
    ((s.foldr (fun c acc =>
        if c = ' ' then [] :: acc
        else
          match acc with
          | [] => [[c]]
          | w :: ws => (c :: w) :: ws) []).filter (fun w => w ≠ []))

/-- The list path of `repair_text` (lines 385–394): clean every input, run
the raw pipeline, render every merged result against its cleaned input. -/
def repairTextList (mode : ModelType) (g : Adapter) (tok : CharTok)
    (matchFn : MatchFn) (maxLength windowSize contextSize : Nat)
    (inputs : List Str) (batchSize : Nat) (sortByLength : Bool) :
    Option (List Str) :=
  let cleaned := inputs.map clean_sequence
  match repairTextRawMerged mode g tok matchFn maxLength windowSize contextSize
      cleaned batchSize sortByLength with
  | none => none
  | some irs => (irs.zip cleaned).mapM (fun p => inferenceResultToStr tok p.1 p.2)

/-- A dynamically typed argument to `repair_text`: a string, a list of
strings, or a value of any other type. -/
inductive PyInput where
  | str (s : Str)
  | list (l : List Str)
  | other

/-- The dynamically typed return shape of `repair_text`. -/
inductive PyOutput where
  | str (s : Str)
  | list (l : List Str)
deriving DecidableEq

/-- `TokenizationRepairer.repair_text` (lines 372–394): the input-shape
assertion (a string, or a non-empty list whose first element is a string),
wrapping of a single string into a batch, and unwrapping of its single
output. -/
def repair_text (mode : ModelType) (g : Adapter) (tok : CharTok)
    (matchFn : MatchFn) (maxLength windowSize contextSize : Nat)
    (input : PyInput) (batchSize : Nat) (sortByLength : Bool) :
    Option PyOutput :=
  match input with
  | .str s =>
    match repairTextList mode g tok matchFn maxLength windowSize contextSize
        [s] batchSize sortByLength with
    | some outs => outs.head?.map .str
    | none => none
  | .list [] => none
  | .list l =>
    (repairTextList mode g tok matchFn maxLength windowSize contextSize
      l batchSize sortByLength).map .list
  | .other => none

/-- The merged result of one input, computed from that input alone: the
adapter applied to every planned window substring with its per-entry
keyword argument, then the merger.  Used to state that batching and
scheduling have no influence on the result. -/
def processOneMerged (mode : ModelType) (g : Adapter) (tok : CharTok)
    (matchFn : MatchFn) (maxLength windowSize contextSize : Nat) (ipt : Str) :
    Option InferenceResult :=
  mergeInferenceResults tok matchFn windowSize contextSize
    ((planInput maxLength windowSize contextSize 0 ipt).map (fun e =>
      g (pySlice ipt e.fromIdx e.toIdx)
        (match mode with
         | .encoderWithHead => .noSpaces true
         | .transformer => .inputString (stripSpaces (pySlice ipt e.fromIdx e.toIdx)))))
    ipt

/-- The whole per-input pipeline as one function of the (cleaned) input
text: the adapter calls of its plan, the merge, and the rendering. -/
def processOne (mode : ModelType) (g : Adapter) (tok : CharTok) (matchFn : MatchFn)
    (maxLength windowSize contextSize : Nat) (ipt : Str) : Option Str :=
  match processOneMerged mode g tok matchFn maxLength windowSize contextSize ipt with
  | some ir => inferenceResultToStr tok ir ipt
  | none => none

/-- One routing write of the dispatch loop, as a function of the entry. -/
def writeEntry (mode : ModelType) (g : Adapter) (inputs : List Str)
    (st : ResultStore) (e : BatchEntry) : ResultStore :=
  storeWrite st e.inputIdx e.position (g (entrySeq inputs e) (entryKwargs mode inputs e))

/-- The adapter result computed for one batch entry. -/
def entryValue (mode : ModelType) (g : Adapter) (inputs : List Str)
    (e : BatchEntry) : AdapterResult :=
  g (entrySeq inputs e) (entryKwargs mode inputs e)

/-! ### Concrete data used by the witnesses and counterexamples -/

/-- A concrete tokenizer for witnesses: whitespace id 0, unknown id 1,
BOS 8, EOS 9; id 3 decodes to `a`, everything else to `z`. -/
def tok1 : CharTok :=
  ⟨fun n => if n = 3 then ['a'] else ['z'], 0, 1, 8, 9⟩

/-- A concrete generation result for the renderer witness. -/
def ir1 : SequenceGenerationInferenceResult := ⟨[8, 3, 0, 1, 9], [0, 0, 0, 0, 0]⟩

/-- A trivial matcher for witnesses: always select the slice `[0, 1)`. -/
def mf0 : MatchFn := fun _ _ _ _ => some (0, 1)

/-- First window result of the overlapping-window scenario: marker-stripped
core values `5, 5`. -/
def r1c5 : SequenceClassificationInferenceResult := ⟨[9, 5, 5, 9], [[1], [1], [1], [1]]⟩

/-- Second window result of the overlapping-window scenario: marker-stripped
core values `7, 7`. -/
def r2c5 : SequenceClassificationInferenceResult := ⟨[9, 7, 7, 9], [[2], [2], [2], [2]]⟩

/-- A single-window classification result containing the sentinel label `-1`. -/
def r6 : SequenceClassificationInferenceResult := ⟨[0, -1, 0], [[0], [0], [0]]⟩

/-- First window result of a well-formed two-window merge over `"abcd"`,
`window_size = 2`, `context_size = 1`. -/
def r4a : SequenceClassificationInferenceResult := ⟨[9, 1, 2, 9], [[1], [1], [1], [1]]⟩

/-- Second window result of the same merge: its stripped slice skips one
left-context position. -/
def r4b : SequenceClassificationInferenceResult :=
  ⟨[9, 5, 6, 7, 9], [[5], [5], [6], [7], [5]]⟩

/-- Generation results for the generation-merge witness. -/
def g0 : SequenceGenerationInferenceResult := ⟨[8, 5, 9], [0, 7, 0]⟩

def g0b : SequenceGenerationInferenceResult := ⟨[8, 4, 9], [0, 3, 0]⟩

def g1 : SequenceGenerationInferenceResult := ⟨[8, 6, 9], [0, 2, 0]⟩

/-- A constant adapter for the scheduling witnesses. -/
def g8 : Adapter := fun _ _ => .cls ⟨[0, 0, 0], [[0], [0], [0]]⟩

/-! ### Helper lemmas -/

theorem npSetSlice_length {α : Type*} {buf : List α} {a b : Nat} {vals out : List α}
    (h : npSetSlice buf a b vals = some out) : out.length = buf.length := by
  have hs : min a buf.length ≤ buf.length := Nat.min_le_right _ _
  have he : max (min b buf.length) (min a buf.length) ≤ buf.length :=
    max_le (Nat.min_le_right _ _) hs
  simp only [npSetSlice] at h
  by_cases hv : vals.length = max (min b buf.length) (min a buf.length) - min a buf.length
  · rw [if_pos hv] at h
    injection h with h
    subst h
    simp only [List.length_append, List.length_take, List.length_drop]
    omega
  · rw [if_neg hv] at h
    rcases vals with _ | ⟨v, _ | ⟨w, t⟩⟩
    · simp at h
    · injection h with h
      subst h
      simp only [List.length_append, List.length_take, List.length_drop,
        List.length_replicate]
      omega
    · simp at h

theorem mergeStep_length {ws ctx : Nat} {bufs out : List Int × List (List Rat)}
    {it : Nat × SequenceClassificationInferenceResult × Nat}
    (h : mergeStep ws ctx bufs it = some out) :
    out.1.length = bufs.1.length ∧ out.2.length = bufs.2.length := by
  simp only [mergeStep] at h
  split at h
  · exact absurd h (by simp)
  · rename_i mp hmp
    split at h
    · exact absurd h (by simp)
    · rename_i ml hml
      injection h with h
      subst h
      exact ⟨npSetSlice_length hmp, npSetSlice_length hml⟩

theorem mergeFold_length {ws ctx : Nat} :
    ∀ {items : List (Nat × SequenceClassificationInferenceResult × Nat)}
      {bufs out : List Int × List (List Rat)},
      mergeFold ws ctx bufs items = some out →
      out.1.length = bufs.1.length ∧ out.2.length = bufs.2.length := by
  intro items
  induction items with
  | nil =>
    intro bufs out h
    unfold mergeFold at h
    injection h with h
    subst h
    exact ⟨rfl, rfl⟩
  | cons it rest ih =>
    intro bufs out h
    unfold mergeFold at h
    split at h
    · exact absurd h (by simp)
    · rename_i bufs' hstep
      have h1 := mergeStep_length hstep
      have h2 := ih h
      omega

theorem mergeFold_append {ws ctx : Nat} :
    ∀ (l₁ l₂ : List (Nat × SequenceClassificationInferenceResult × Nat))
      (bufs : List Int × List (List Rat)),
      mergeFold ws ctx bufs (l₁ ++ l₂) =
        match mergeFold ws ctx bufs l₁ with
        | none => none
        | some b => mergeFold ws ctx b l₂ := by
  intro l₁
  induction l₁ with
  | nil => intro l₂ bufs; rfl
  | cons it rest ih =>
    intro l₂ bufs
    have h1 : mergeFold ws ctx bufs ((it :: rest) ++ l₂)
        = match mergeStep ws ctx bufs it with
          | none => none
          | some b => mergeFold ws ctx b (rest ++ l₂) := rfl
    have h2 : mergeFold ws ctx bufs (it :: rest)
        = match mergeStep ws ctx bufs it with
          | none => none
          | some b => mergeFold ws ctx b rest := rfl
    rw [h1, h2]
    cases hstep : mergeStep ws ctx bufs it with
    | none => rfl
    | some b => exact ih l₂ b

theorem getElem?_cons_succ' {α : Type*} (a : α) (l : List α) (n : Nat) :
    (a :: l)[n + 1]? = l[n]? := List.getElem?_cons_succ

theorem getElem?_cons_zero' {α : Type*} (a : α) (l : List α) :
    (a :: l)[0]? = some a := List.getElem?_cons_zero

/-! ### C10 -/

/-- C10: the per-entry `no_spaces` flags for a classification
(`encoder_with_head`) batch are computed by testing whether the space
character is a member of the batch-entry tuple
`(input_idx, from_, to_, position)` (see `entryNoSpacesFlag`), never of the
entry's substring text, so every flag is `True` regardless of the window's
text. -/
theorem c10_no_spaces_flags_always_true :
    (∀ batch : List BatchEntry,
      batch.map entryNoSpacesFlag = List.replicate batch.length true) ∧
    (∀ (inputs : List Str) (e : BatchEntry),
      entryKwargs .encoderWithHead inputs e = .noSpaces true) := by
  have hflag : ∀ e : BatchEntry, entryNoSpacesFlag e = true := by
    intro e
    simp [entryNoSpacesFlag, pyIn, entryTupleVals, pyEq]
  refine ⟨?_, ?_⟩
  · intro batch
    calc batch.map entryNoSpacesFlag
        = batch.map (Function.const _ true) := List.map_congr_left (fun e _ => hflag e)
      _ = List.replicate batch.length true := List.map_const _ _
  · intro inputs e
    simp [entryKwargs, hflag]

/-! ### C3 -/

/-- C3: an input that fits into the model context is planned as exactly one
window `[0, input_length)` (also for the empty input), and the merger
returns a single window's result unchanged, for both the classification and
the generation variant. -/
theorem c3_single_window_identity :
    (∀ (maxL ws ctx idx : Nat) (ipt : Str), ipt.length ≤ maxL →
      planInput maxL ws ctx idx ipt = [⟨idx, 0, ipt.length, 0⟩]) ∧
    (∀ (tok : CharTok) (matchFn : MatchFn) (ws ctx : Nat)
        (r : SequenceClassificationInferenceResult) (input : Str),
      mergeInferenceResults tok matchFn ws ctx [.cls r] input = some (.cls r)) ∧
    (∀ (tok : CharTok) (matchFn : MatchFn) (ws ctx : Nat)
        (r : SequenceGenerationInferenceResult) (input : Str),
      mergeInferenceResults tok matchFn ws ctx [.gen r] input = some (.gen r)) := by
  refine ⟨?_, ?_, ?_⟩
  · intro maxL ws ctx idx ipt h
    simp [planInput, h]
  · intro tok matchFn ws ctx r input
    rfl
  · intro tok matchFn ws ctx r input
    rfl

theorem c3_witness :
    ([] : Str).length ≤ 5 ∧ planInput 5 3 1 0 [] = [⟨0, 0, 0, 0⟩] :=
  ⟨by decide, c3_single_window_identity.1 5 3 1 0 [] (by decide)⟩

/-! ### C5 -/

/-- C5 (counterexample): with overlapping windows `[0, 1]` (`window_size
= 2`, a planner-bug geometry), both windows write buffer position 1 — window
0 writes `5` there, window 1 writes `7` — yet the merger raises no error: it
returns a merged result in which the later window's `7` silently overwrote
the earlier window's `5`. -/
theorem c5_counterexample :
    mergeClassificationWith 2 0 3 [0, 1] [r1c5, r2c5] =
      some ⟨[0, 5, 7, 7, 0], [[0], [1], [2], [2], [0]]⟩ ∧
    (strippedSlice 2 0 0 r1c5.predictions)[1]? = some 5 ∧
    (strippedSlice 2 0 1 r2c5.predictions)[0]? = some 7 := by
  refine ⟨by decide, by decide, by decide⟩

theorem npSetSlice_eq_exact {α : Type*} (buf : List α) (a b : Nat) (vals : List α)
    (hv : vals.length = max (min b buf.length) (min a buf.length) - min a buf.length) :
    npSetSlice buf a b vals =
      some (buf.take (min a buf.length) ++ vals ++
        buf.drop (max (min b buf.length) (min a buf.length))) := by
  simp only [npSetSlice]
  rw [if_pos hv]

/-- C5 (amended): the merger performs no double-write detection.  Whatever
earlier windows wrote, the last window's stripped slice is what the merged
result holds throughout that window's range: a position covered by two
windows ends up with the later window's value (silent overwrite). -/
theorem c5_later_window_wins :
    ∀ (ws ctx L : Nat) (windows : List Nat)
      (rs : List SequenceClassificationInferenceResult)
      (r : SequenceClassificationInferenceResult) (w : Nat)
      (m : SequenceClassificationInferenceResult),
      mergeClassificationWith ws ctx L (windows ++ [w]) (rs ++ [r]) = some m →
      w ≤ L →
      (strippedSlice ws ctx rs.length r.predictions).length = min (w + ws) L - w →
      ∀ j, j < (strippedSlice ws ctx rs.length r.predictions).length →
        m.predictions[w + 1 + j]? = (strippedSlice ws ctx rs.length r.predictions)[j]? := by
  intro ws ctx L windows rs r w m hm hw hlen j hj
  simp only [mergeClassificationWith] at hm
  split at hm
  case isFalse => exact absurd hm (by simp)
  rename_i hcount
  have hrw : rs.length = windows.length := by
    simp only [List.length_append, List.length_singleton] at hcount
    omega
  split at hm
  · exact absurd hm (by simp)
  rename_i C hC
  rw [List.zip_append hrw, List.enum_append] at hm
  have hlenzip : (rs.zip windows).length = rs.length := by
    simp [List.length_zip, hrw]
  rw [hlenzip] at hm
  have henum1 : List.enumFrom rs.length ([r].zip [w]) = [(rs.length, (r, w))] := rfl
  rw [henum1, mergeFold_append] at hm
  cases hfold1 : mergeFold ws ctx
      (List.replicate L (-1), List.replicate L (List.replicate C 0))
      ((rs.zip windows).enum) with
  | none => simp only [hfold1] at hm; exact absurd hm (by simp)
  | some bufs1 =>
    simp only [hfold1] at hm
    have hb1len := mergeFold_length hfold1
    simp only [List.length_replicate] at hb1len
    have hfold2 : mergeFold ws ctx bufs1 [(rs.length, (r, w))] =
        match mergeStep ws ctx bufs1 (rs.length, (r, w)) with
        | none => none
        | some b => some b := by
      show (match mergeStep ws ctx bufs1 (rs.length, (r, w)) with
            | none => none
            | some b => mergeFold ws ctx b []) = _
      cases mergeStep ws ctx bufs1 (rs.length, (r, w)) <;> rfl
    rw [hfold2] at hm
    cases hstep : mergeStep ws ctx bufs1 (rs.length, (r, w)) with
    | none => simp only [hstep] at hm; exact absurd hm (by simp)
    | some bufs2 =>
      simp only [hstep] at hm
      obtain ⟨mp, ml⟩ := bufs2
      simp only [mergeStep] at hstep
      cases hnp : npSetSlice bufs1.1 w (w + ws)
          (strippedSlice ws ctx rs.length r.predictions) with
      | none => rw [hnp] at hstep; exact absurd hstep (by simp)
      | some mp' =>
        have hmplen : mp'.length = bufs1.1.length := npSetSlice_length hnp
        rw [hnp] at hstep
        cases hnl : npSetSlice bufs1.2 w (w + ws)
            (strippedLogitsSlice ws ctx rs.length r.logits) with
        | none => rw [hnl] at hstep; exact absurd hstep (by simp)
        | some ml' =>
          rw [hnl] at hstep
          injection hstep with hstep
          injection hstep with hmp hml
          subst hmp
          -- analyse the final guard
          split at hm
          case isFalse => exact absurd hm (by simp)
          rename_i hall
          injection hm with hm
          subst hm
          -- analyse the numpy write of the last window
          have hv' : (strippedSlice ws ctx rs.length r.predictions).length =
              max (min (w + ws) bufs1.1.length) (min w bufs1.1.length) -
                min w bufs1.1.length := by
            rw [hb1len.1]; omega
          rw [npSetSlice_eq_exact _ _ _ _ hv'] at hnp
          injection hnp with hnp
          rw [hb1len.1] at hnp
          have hminw : min w L = w := by omega
          rw [hminw] at hnp
          have hmaxe : max (min (w + ws) L) w = min (w + ws) L := by omega
          rw [hmaxe] at hnp
          -- index computation
          have htake : (List.take w bufs1.1).length = w := by
            rw [List.length_take, hb1len.1]; omega
          have hminL : min (w + ws) L ≤ L := Nat.min_le_right _ _
          have hwj : w + j < min (w + ws) L := by omega
          rw [hb1len.1] at hmplen
          show (0 :: mp' ++ [0])[w + 1 + j]? =
            (strippedSlice ws ctx rs.length r.predictions)[j]?
          have harith : w + 1 + j = (w + j) + 1 := by omega
          rw [harith]
          rw [List.getElem?_append]
          rw [if_pos (by simp only [List.length_cons, hmplen]; omega)]
          rw [getElem?_cons_succ']
          rw [← hnp]
          rw [List.getElem?_append]
          rw [if_pos (by simp only [List.length_append, htake]; omega)]
          rw [List.getElem?_append]
          rw [if_neg (by rw [htake]; omega)]
          rw [htake]
          have harith2 : w + j - w = j := by omega
          rw [harith2]

theorem c5_witness :
    mergeClassificationWith 2 0 3 ([0] ++ [1]) ([r1c5] ++ [r2c5]) =
      some ⟨[0, 5, 7, 7, 0], [[0], [1], [2], [2], [0]]⟩ ∧
    (⟨[0, 5, 7, 7, 0], [[0], [1], [2], [2], [0]]⟩ :
        SequenceClassificationInferenceResult).predictions[1 + 1 + 0]? =
      (strippedSlice 2 0 [r1c5].length r2c5.predictions)[0]? :=
  ⟨by decide,
   c5_later_window_wins 2 0 3 [0] [r1c5] r2c5 1 _ (by decide) (by decide) (by decide)
     0 (by decide)⟩

/-! ### C6 -/

/-- C6 (counterexample): a classification merge that receives a *single*
result while two windows are planned does not fail: the result is returned
unchanged, even though it contains the sentinel label `-1`. -/
theorem c6_counterexample :
    mergeInferenceResults tok1 mf0 2 0 [.cls r6] ['a', 'b', 'c'] = some (.cls r6) ∧
    (sliding_windows (['a', 'b', 'c'] : Str).length 2).length = 2 ∧
    (-1 : Int) ∈ r6.predictions :=
  ⟨rfl, by decide, by decide⟩

/-- C6 (amended): the *multi-window* classification merge body enforces the
consistency checks: whenever it returns a result, the received result count
equals the planned window count and no position of the returned predictions
is a (negative) sentinel. -/
theorem c6_multiwindow_checks :
    ∀ (ws ctx : Nat) (crs : List SequenceClassificationInferenceResult)
      (input : Str) (m : SequenceClassificationInferenceResult),
      mergeClassification ws ctx crs input = some m →
      crs.length = (sliding_windows input.length ws).length ∧
      ∀ v ∈ m.predictions, 0 ≤ v := by
  intro ws ctx crs input m hm
  simp only [mergeClassification, mergeClassificationWith] at hm
  split at hm
  case isFalse => exact absurd hm (by simp)
  rename_i hcount
  refine ⟨hcount, ?_⟩
  split at hm
  · exact absurd hm (by simp)
  rename_i C hC
  split at hm
  · exact absurd hm (by simp)
  rename_i mp ml hfold
  split at hm
  case isFalse => exact absurd hm (by simp)
  rename_i hall
  injection hm with hm
  subst hm
  intro v hv
  rcases List.mem_cons.mp hv with h0 | hv2
  · omega
  · rcases List.mem_append.mp hv2 with h1 | h2
    · exact of_decide_eq_true (List.all_eq_true.mp hall v h1)
    · have h3 : v = 0 := List.mem_singleton.mp h2
      omega

theorem c6_witness :
    ([r4a, r4b].length =
      (sliding_windows (['a', 'b', 'c', 'd'] : Str).length 2).length) ∧
    ∀ v ∈ (⟨[0, 1, 2, 6, 7, 0], [[0], [1], [1], [6], [7], [0]]⟩ :
        SequenceClassificationInferenceResult).predictions, 0 ≤ v :=
  c6_multiwindow_checks 2 1 [r4a, r4b] ['a', 'b', 'c', 'd'] _ (by decide)

/-! ### C2 -/

theorem tile_full (ws : Nat) :
    ∀ n : Nat,
      (((List.range n).map (fun k => List.range' (k * ws) ws)).flatten) =
        List.range (n * ws) := by
  intro n
  induction n with
  | zero => simp
  | succ n ih =>
    rw [List.range_succ, List.map_append, List.flatten_append, ih]
    simp only [List.map_cons, List.map_nil, List.flatten_cons, List.flatten_nil,
      List.append_nil]
    rw [List.range_eq_range', List.range_eq_range']
    have h := List.range'_append 0 (n * ws) ws 1
    simp only [Nat.one_mul, Nat.zero_add] at h
    rw [h]
    congr 1
    ring

theorem cores_flatten (L ws : Nat) (hws : 0 < ws) :
    (windowCores L ws).flatten = List.range L := by
  unfold windowCores sliding_windows
  by_cases hL : L = 0
  · subst hL
    simp
  · rw [if_neg hL]
    have hmod := Nat.div_add_mod (L + ws - 1) ws
    have hmodlt : (L + ws - 1) % ws < ws := Nat.mod_lt _ hws
    have hL1 : 1 ≤ L := Nat.one_le_iff_ne_zero.mpr hL
    have hn1 : 1 ≤ (L + ws - 1) / ws := by
      rcases Nat.eq_zero_or_pos ((L + ws - 1) / ws) with h0 | h0
      · rw [h0] at hmod
        omega
      · exact h0
    obtain ⟨m, hm⟩ : ∃ m, (L + ws - 1) / ws = m + 1 :=
      ⟨(L + ws - 1) / ws - 1, by omega⟩
    rw [hm]
    rw [hm] at hmod
    have e1 : ws * (m + 1) = ws * m + ws := by ring
    rw [e1] at hmod
    -- key bounds on the last window
    have key1 : L ≤ ws * m + ws := by omega
    have key2 : ws * m < L := by omega
    rw [List.map_map, List.range_succ, List.map_append, List.flatten_append]
    have hcong :
        (List.range m).map
            ((fun s => List.range' s (min (s + ws) L - s)) ∘ (· * ws)) =
          (List.range m).map (fun k => List.range' (k * ws) ws) := by
      apply List.map_congr_left
      intro k hk
      rw [List.mem_range] at hk
      have hk1 : (k + 1) * ws ≤ m * ws := Nat.mul_le_mul_right ws (by omega)
      have hk2 : k * ws + ws = (k + 1) * ws := by ring
      have hmw : m * ws = ws * m := Nat.mul_comm _ _
      have hle : k * ws + ws ≤ L := by omega
      simp only [Function.comp]
      rw [min_eq_left hle, Nat.add_sub_cancel_left]
    rw [hcong, tile_full]
    simp only [List.map_cons, List.map_nil, List.flatten_cons, List.flatten_nil,
      List.append_nil, Function.comp_apply]
    have hmw : m * ws = ws * m := Nat.mul_comm _ _
    have hminL : min (m * ws + ws) L = L := min_eq_right (by omega)
    rw [hminL]
    rw [List.range_eq_range', List.range_eq_range']
    have h := List.range'_append 0 (m * ws) (L - m * ws) 1
    simp only [Nat.one_mul, Nat.zero_add] at h
    rw [h]
    congr 1
    omega

/-- C2: the planned window cores exactly tile `[0, input_length)` in
left-to-right order with no gaps and no overlaps, for every input length
and positive window size; concretely, `max_context = 800` gives
`window_size = 600` and `context_size = 100`, and an input of length 1000 is
planned as 2 windows with starts `0` and `600` and cores `[0, 600)` and
`[600, 1000)`. -/
theorem c2_window_cores_tile :
    (∀ (L ws : Nat), 0 < ws → (windowCores L ws).flatten = List.range L) ∧
    windowSizeOf 800 = 600 ∧
    contextSizeOf 800 = 100 ∧
    sliding_windows 1000 600 = [0, 600] ∧
    windowCores 1000 600 = [List.range' 0 600, List.range' 600 400] := by
  refine ⟨fun L ws hws => cores_flatten L ws hws, by decide, by decide, ?_, ?_⟩
  · rfl
  · rfl

theorem c2_witness :
    0 < 600 ∧ (windowCores 1000 600).flatten = List.range 1000 :=
  ⟨by decide, c2_window_cores_tile.1 1000 600 (by decide)⟩

/-! ### C1 -/

theorem renderToken_ptr {tok : CharTok} {noSp : Str} {ptr : Nat} {tid : Nat}
    {piece : Str} {ptr' : Nat}
    (h : renderToken tok noSp ptr tid = some (piece, ptr')) :
    ptr' = if tid = tok.wsTokenId then ptr else ptr + 1 := by
  unfold renderToken at h
  by_cases h1 : tid = tok.wsTokenId
  · rw [if_pos h1] at h
    injection h with h
    injection h with h2 h3
    rw [if_pos h1]
    omega
  · rw [if_neg h1] at h
    rw [if_neg h1]
    by_cases h2 : tid = tok.unkTokenId
    · rw [if_pos h2] at h
      cases hc : noSp[ptr]? with
      | none => rw [hc] at h; exact absurd h (by simp)
      | some c =>
        rw [hc] at h
        injection h with h
        injection h with h3 h4
        omega
    · rw [if_neg h2] at h
      injection h with h
      injection h with h3 h4
      omega

theorem renderTokens_unk (tok : CharTok) (noSp : Str) :
    ∀ (ids : List Nat) (ptr : Nat) (pieces : List Str) (ptrF : Nat),
      renderTokens tok noSp ptr ids = some (pieces, ptrF) →
      tok.unkTokenId ≠ tok.wsTokenId →
      ∀ k, ids[k]? = some tok.unkTokenId →
        ∃ c, noSp[ptr + countNonWs tok (ids.take k)]? = some c ∧
          pieces[k]? = some [c] := by
  intro ids
  induction ids with
  | nil =>
    intro ptr pieces ptrF h hne k hk
    simp at hk
  | cons t rest ih =>
    intro ptr pieces ptrF h hne k hk
    unfold renderTokens at h
    cases hrt : renderToken tok noSp ptr t with
    | none => rw [hrt] at h; exact absurd h (by simp)
    | some pr =>
      obtain ⟨piece, ptr'⟩ := pr
      simp only [hrt] at h
      cases hrest : renderTokens tok noSp ptr' rest with
      | none => rw [hrest] at h; exact absurd h (by simp)
      | some pp =>
        obtain ⟨pieces', pF⟩ := pp
        rw [hrest] at h
        injection h with h
        injection h with hp hpf
        subst hp
        cases k with
        | zero =>
          rw [getElem?_cons_zero'] at hk
          injection hk with hk
          subst hk
          unfold renderToken at hrt
          rw [if_neg hne, if_pos rfl] at hrt
          cases hc : noSp[ptr]? with
          | none => rw [hc] at hrt; exact absurd hrt (by simp)
          | some c =>
            rw [hc] at hrt
            injection hrt with hrt
            injection hrt with h1 h2
            refine ⟨c, ?_, ?_⟩
            · simpa [countNonWs] using hc
            · rw [getElem?_cons_zero', ← h1]
        | succ k =>
          rw [getElem?_cons_succ'] at hk
          obtain ⟨c, hc1, hc2⟩ := ih ptr' pieces' pF hrest hne k hk
          refine ⟨c, ?_, ?_⟩
          · have hptr := renderToken_ptr hrt
            have hcount : countNonWs tok ((t :: rest).take (k + 1)) =
                (if t = tok.wsTokenId then 0 else 1) + countNonWs tok (rest.take k) := by
              simp only [List.take_succ_cons, countNonWs, List.filter_cons]
              by_cases hts : t = tok.wsTokenId
              · simp [hts]
              · simp only [hts, if_false, Bool.not_false, decide_eq_true_eq]
                simp [hts]
                omega
            rw [hcount]
            by_cases hts : t = tok.wsTokenId
            · rw [if_pos hts] at hptr
              rw [if_pos hts]
              subst hptr
              simpa using hc1
            · rw [if_neg hts] at hptr
              rw [if_neg hts]
              subst hptr
              have : ptr + (1 + countNonWs tok (rest.take k)) =
                  ptr + 1 + countNonWs tok (rest.take k) := by omega
              rw [this]
              exact hc1
          · rw [getElem?_cons_succ']
            exact hc2

/-- C1: the generation-variant output renderer either fails or returns a
string whose space-stripped form equals the input's space-stripped character
sequence (its mandatory self-check), and inside the rendering loop every
unknown-token placeholder is rendered as the corresponding next character of
the input's whitespace-stripped form — the pointer having advanced once per
preceding non-whitespace token — never as a placeholder glyph. -/
theorem c1_renderer_round_trip :
    (∀ (tok : CharTok) (ir : SequenceGenerationInferenceResult) (input out : Str),
      renderGeneration tok ir input = some out →
      stripSpaces out = stripSpaces input) ∧
    (∀ (tok : CharTok) (noSp : Str) (ids : List Nat) (ptr : Nat)
        (pieces : List Str) (ptrF k : Nat),
      renderTokens tok noSp ptr ids = some (pieces, ptrF) →
      tok.unkTokenId ≠ tok.wsTokenId →
      ids[k]? = some tok.unkTokenId →
      ∃ c, noSp[ptr + countNonWs tok (ids.take k)]? = some c ∧
        pieces[k]? = some [c]) := by
  constructor
  · intro tok ir input out h
    simp only [renderGeneration] at h
    cases hrt : renderTokens tok (stripSpaces input) 0 (sliceMid ir.token_ids) with
    | none => rw [hrt] at h; exact absurd h (by simp)
    | some pr =>
      obtain ⟨pieces, ptr⟩ := pr
      simp only [hrt] at h
      split at h
      case isFalse => exact absurd h (by simp)
      case isTrue hcond =>
        injection h with h
        subst h
        exact hcond.2
  · intro tok noSp ids ptr pieces ptrF k h hne hk
    exact renderTokens_unk tok noSp ids ptr pieces ptrF h hne k hk

theorem c1_witness :
    stripSpaces ['a', ' ', 'x'] = stripSpaces ['a', 'x'] ∧
    ∃ c, (['a', 'x'] : Str)[0 + countNonWs tok1 ([3, 0, 1].take 2)]? = some c ∧
      ([['a'], [' '], ['x']] : List Str)[2]? = some [c] :=
  ⟨c1_renderer_round_trip.1 tok1 ir1 ['a', 'x'] ['a', ' ', 'x'] rfl,
   c1_renderer_round_trip.2 tok1 ['a', 'x'] [3, 0, 1] 0 [['a'], [' '], ['x']] 2 2
     rfl (by decide) rfl⟩

/-! ### C4 -/

theorem sliding_windows_eq (L ws : Nat) :
    sliding_windows L ws =
      (List.range (if L = 0 then 1 else (L + ws - 1) / ws)).map (· * ws) := by
  by_cases h : L = 0
  · subst h
    simp [sliding_windows, List.range_succ]
  · simp [sliding_windows, h]

theorem length_le_nwindows_mul (L ws : Nat) (hws : 0 < ws) :
    L ≤ (if L = 0 then 1 else (L + ws - 1) / ws) * ws := by
  by_cases h : L = 0
  · simp [h]
  · rw [if_neg h]
    have hmod := Nat.div_add_mod (L + ws - 1) ws
    have hlt : (L + ws - 1) % ws < ws := Nat.mod_lt _ hws
    have hcomm : ws * ((L + ws - 1) / ws) = ((L + ws - 1) / ws) * ws :=
      Nat.mul_comm _ _
    omega

theorem items_shape (ws : Nat) :
    ∀ (crs : List SequenceClassificationInferenceResult) (j : Nat),
      (crs.zip ((List.range' j crs.length).map (· * ws))).enumFrom j
        = (crs.enumFrom j).map (fun p => (p.1, (p.2, p.1 * ws))) := by
  intro crs
  induction crs with
  | nil => intro j; rfl
  | cons r rest ih =>
    intro j
    have h1 : List.range' j (r :: rest).length = j :: List.range' (j + 1) rest.length := by
      rw [List.length_cons, List.range'_succ]
    rw [h1]
    simp only [List.map_cons, List.zip_cons_cons, List.enumFrom_cons]
    rw [ih (j + 1)]

theorem npSetSlice_tile_step {α : Type*} (P vals : List α) (L w ws : Nat) (x : α)
    (hP : P.length = min w L)
    (hv : vals.length = min (w + ws) L - w) :
    npSetSlice (P ++ List.replicate (L - min w L) x) w (w + ws) vals =
      some ((P ++ vals) ++ List.replicate (L - min (w + ws) L) x) := by
  have hlen : (P ++ List.replicate (L - min w L) x).length = L := by
    simp only [List.length_append, List.length_replicate, hP]
    omega
  have h := npSetSlice_eq_exact (P ++ List.replicate (L - min w L) x) w (w + ws) vals
    (by rw [hlen]; omega)
  rw [h]
  rw [hlen]
  have hmax : max (min (w + ws) L) (min w L) = min (w + ws) L := by omega
  rw [hmax]
  have htake : List.take (min w L) (P ++ List.replicate (L - min w L) x) = P := by
    rw [← hP, List.take_left]
  have hdrop : List.drop (min (w + ws) L) (P ++ List.replicate (L - min w L) x)
      = List.replicate (L - min (w + ws) L) x := by
    have hsplit : min (w + ws) L = P.length + (min (w + ws) L - min w L) := by
      rw [hP]; omega
    rw [hsplit, List.drop_append, List.drop_replicate]
    congr 1
    omega
  rw [htake, hdrop]

theorem mergeFold_tiles (ws ctx L C : Nat) :
    ∀ (rest : List SequenceClassificationInferenceResult) (j : Nat)
      (P : List Int) (Q : List (List Rat)),
      P.length = min (j * ws) L →
      Q.length = min (j * ws) L →
      (∀ t r, rest[t]? = some r →
        (strippedSlice ws ctx (j + t) r.predictions).length
            = min ((j + t) * ws + ws) L - (j + t) * ws ∧
        (strippedLogitsSlice ws ctx (j + t) r.logits).length
            = min ((j + t) * ws + ws) L - (j + t) * ws) →
      mergeFold ws ctx
        (P ++ List.replicate (L - min (j * ws) L) (-1),
         Q ++ List.replicate (L - min (j * ws) L) (List.replicate C 0))
        ((rest.enumFrom j).map (fun p => (p.1, (p.2, p.1 * ws))))
      = some
        (P ++ ((rest.enumFrom j).map
            (fun p => strippedSlice ws ctx p.1 p.2.predictions)).flatten
           ++ List.replicate (L - min ((j + rest.length) * ws) L) (-1),
         Q ++ ((rest.enumFrom j).map
            (fun p => strippedLogitsSlice ws ctx p.1 p.2.logits)).flatten
           ++ List.replicate (L - min ((j + rest.length) * ws) L)
              (List.replicate C 0)) := by
  intro rest
  induction rest with
  | nil =>
    intro j P Q hP hQ hs
    simp only [List.enumFrom_nil, List.map_nil, List.flatten_nil, List.length_nil,
      Nat.add_zero, List.append_nil]
    rfl
  | cons r rest' ih =>
    intro j P Q hP hQ hs
    have hs0 := hs 0 r (by simp)
    simp only [Nat.add_zero] at hs0
    rw [List.enumFrom_cons]
    simp only [List.map_cons, List.flatten_cons, List.length_cons]
    have h1 := npSetSlice_tile_step P (strippedSlice ws ctx j r.predictions)
      L (j * ws) ws (-1) hP hs0.1
    have h2 := npSetSlice_tile_step Q (strippedLogitsSlice ws ctx j r.logits)
      L (j * ws) ws (List.replicate C 0) hQ hs0.2
    have hstep : mergeStep ws ctx
        (P ++ List.replicate (L - min (j * ws) L) (-1),
         Q ++ List.replicate (L - min (j * ws) L) (List.replicate C 0))
        (j, (r, j * ws)) =
        some ((P ++ strippedSlice ws ctx j r.predictions)
            ++ List.replicate (L - min (j * ws + ws) L) (-1),
          (Q ++ strippedLogitsSlice ws ctx j r.logits)
            ++ List.replicate (L - min (j * ws + ws) L) (List.replicate C 0)) := by
      simp only [mergeStep, h1, h2]
    show (match mergeStep ws ctx
        (P ++ List.replicate (L - min (j * ws) L) (-1),
         Q ++ List.replicate (L - min (j * ws) L) (List.replicate C 0))
        (j, (r, j * ws)) with
      | none => none
      | some bufs' => mergeFold ws ctx bufs'
          ((rest'.enumFrom (j + 1)).map
            (fun p : Nat × SequenceClassificationInferenceResult =>
              (p.1, (p.2, p.1 * ws))))) = _
    simp only [hstep]
    have hjw : (j + 1) * ws = j * ws + ws := by ring
    have hP' : (P ++ strippedSlice ws ctx j r.predictions).length
        = min ((j + 1) * ws) L := by
      rw [hjw]
      simp only [List.length_append, hP, hs0.1]
      omega
    have hQ' : (Q ++ strippedLogitsSlice ws ctx j r.logits).length
        = min ((j + 1) * ws) L := by
      rw [hjw]
      simp only [List.length_append, hQ, hs0.2]
      omega
    have hs' : ∀ t r', rest'[t]? = some r' →
        (strippedSlice ws ctx ((j + 1) + t) r'.predictions).length
            = min (((j + 1) + t) * ws + ws) L - ((j + 1) + t) * ws ∧
        (strippedLogitsSlice ws ctx ((j + 1) + t) r'.logits).length
            = min (((j + 1) + t) * ws + ws) L - ((j + 1) + t) * ws := by
      intro t r' ht
      have e : j + (t + 1) = (j + 1) + t := by omega
      have h := hs (t + 1) r' (by rw [getElem?_cons_succ']; exact ht)
      rw [e] at h
      exact h
    have hih := ih (j + 1) (P ++ strippedSlice ws ctx j r.predictions)
      (Q ++ strippedLogitsSlice ws ctx j r.logits) hP' hQ' hs'
    rw [hjw] at hih
    rw [hih]
    have harith : (j + 1 + rest'.length) * ws = (j + (rest'.length + 1)) * ws := by
      ring
    rw [harith]
    simp [List.append_assoc]

/-- C4: in a multi-window classification merge whose window results carry
full-size cores, the merged predictions are exactly: a zero marker, then —
window by window, at each window's start offset — the marker-stripped slice
taken from offset `0` for window `0` and from offset `context_size` for
every later window, then a zero marker; the logits are merged the same way
with zero marker rows. -/
theorem c4_classification_merge_structure :
    ∀ (ws ctx : Nat) (crs : List SequenceClassificationInferenceResult)
      (input : Str) (m : SequenceClassificationInferenceResult),
      0 < ws →
      mergeClassification ws ctx crs input = some m →
      (∀ i r, crs[i]? = some r →
        (strippedSlice ws ctx i r.predictions).length
            = min (i * ws + ws) input.length - i * ws ∧
        (strippedLogitsSlice ws ctx i r.logits).length
            = min (i * ws + ws) input.length - i * ws) →
      ∃ C, numClassesOf crs = some C ∧
        m.predictions =
          0 :: (crs.enum.map
              (fun p => strippedSlice ws ctx p.1 p.2.predictions)).flatten ++ [0] ∧
        m.logits =
          List.replicate C 0 :: (crs.enum.map
              (fun p => strippedLogitsSlice ws ctx p.1 p.2.logits)).flatten
            ++ [List.replicate C 0] := by
  intro ws ctx crs input m hws hm hs
  simp only [mergeClassification, mergeClassificationWith] at hm
  split at hm
  case isFalse => exact absurd hm (by simp)
  rename_i hcount
  split at hm
  · exact absurd hm (by simp)
  rename_i C hC
  refine ⟨C, hC, ?_⟩
  have hwin := sliding_windows_eq input.length ws
  rw [hwin] at hcount
  have hn : crs.length =
      (if input.length = 0 then 1 else (input.length + ws - 1) / ws) := by
    simpa using hcount
  have hlist : (List.range
        (if input.length = 0 then 1 else (input.length + ws - 1) / ws)).map (· * ws)
      = (List.range' 0 crs.length).map (· * ws) := by
    rw [← hn, List.range_eq_range']
  rw [hwin, hlist] at hm
  have hsh : (crs.zip ((List.range' 0 crs.length).map (· * ws))).enum
      = crs.enum.map
        (fun p : Nat × SequenceClassificationInferenceResult =>
          (p.1, (p.2, p.1 * ws))) :=
    items_shape ws crs 0
  rw [hsh] at hm
  have h0 : List.replicate input.length (-1 : Int)
      = ([] : List Int) ++
        List.replicate (input.length - min (0 * ws) input.length) (-1) := by
    simp
  have h0Q : List.replicate input.length (List.replicate C (0 : Rat))
      = ([] : List (List Rat)) ++
        List.replicate (input.length - min (0 * ws) input.length)
          (List.replicate C 0) := by
    simp
  rw [h0, h0Q] at hm
  have hs' : ∀ t r, crs[t]? = some r →
      (strippedSlice ws ctx (0 + t) r.predictions).length
          = min ((0 + t) * ws + ws) input.length - (0 + t) * ws ∧
      (strippedLogitsSlice ws ctx (0 + t) r.logits).length
          = min ((0 + t) * ws + ws) input.length - (0 + t) * ws := by
    intro t r h
    simpa using hs t r h
  have htiles := mergeFold_tiles ws ctx input.length C crs 0 [] []
    (by simp) (by simp) hs'
  have henum : crs.enumFrom 0 = crs.enum := rfl
  rw [henum] at htiles
  simp only [htiles] at hm
  have hge : input.length ≤ crs.length * ws := by
    rw [hn]
    exact length_le_nwindows_mul input.length ws hws
  have hminfull : min ((0 + crs.length) * ws) input.length = input.length := by
    simp only [Nat.zero_add]
    omega
  rw [hminfull] at hm
  simp only [Nat.sub_self, List.replicate_zero, List.append_nil, List.nil_append] at hm
  split at hm
  case isFalse => exact absurd hm (by simp)
  rename_i hall
  injection hm with hm
  subst hm
  exact ⟨rfl, rfl⟩

theorem c4_witness :
    ∃ C, numClassesOf [r4a, r4b] = some C ∧
      (⟨[0, 1, 2, 6, 7, 0], [[0], [1], [1], [6], [7], [0]]⟩ :
          SequenceClassificationInferenceResult).predictions =
        0 :: (([r4a, r4b].enum).map
            (fun p => strippedSlice 2 1 p.1 p.2.predictions)).flatten ++ [0] ∧
      (⟨[0, 1, 2, 6, 7, 0], [[0], [1], [1], [6], [7], [0]]⟩ :
          SequenceClassificationInferenceResult).logits =
        List.replicate C 0 :: (([r4a, r4b].enum).map
            (fun p => strippedLogitsSlice 2 1 p.1 p.2.logits)).flatten
          ++ [List.replicate C 0] :=
  c4_classification_merge_structure 2 1 [r4a, r4b] ['a', 'b', 'c', 'd'] _
    (by decide) (by decide)
    (by
      intro i r h
      rcases i with _ | _ | i
      · rw [getElem?_cons_zero'] at h
        injection h with h
        subst h
        exact ⟨by decide, by decide⟩
      · rw [getElem?_cons_succ', getElem?_cons_zero'] at h
        injection h with h
        subst h
        exact ⟨by decide, by decide⟩
      · rw [getElem?_cons_succ', getElem?_cons_succ'] at h
        simp at h)

/-! ### C7 -/

theorem reduceBeams_tops :
    ∀ (beams : List (List SequenceGenerationInferenceResult))
      (tops : List SequenceGenerationInferenceResult),
      beams.mapM List.head? = some tops →
      reduceBeams (beams.map .genBeams) = some (tops.map .gen) := by
  intro beams
  induction beams with
  | nil =>
    intro tops h
    simp only [List.mapM_nil] at h
    injection h with h
    subst h
    rfl
  | cons b bs ih =>
    intro tops h
    rw [List.mapM_cons] at h
    cases hh : b.head? with
    | none => rw [hh] at h; simp at h
    | some t =>
      rw [hh] at h
      cases hrest : bs.mapM List.head? with
      | none => rw [hrest] at h; simp at h
      | some ts =>
        rw [hrest] at h
        simp at h
        obtain ⟨b', hb⟩ : ∃ b', b = t :: b' := by
          cases b with
          | nil => simp at hh
          | cons x xs =>
            rw [List.head?_cons] at hh
            injection hh with hh
            subst hh
            exact ⟨xs, rfl⟩
        subst hb
        have hbs := ih ts hrest
        subst h
        rw [List.map_cons]
        unfold reduceBeams at hbs ⊢
        rw [List.mapM_cons, hbs]
        rfl

theorem mergeGenerationWith_structure :
    ∀ (matchFn : MatchFn) (tok : CharTok) (ws ctx : Nat) (windows : List Nat)
      (grs : List SequenceGenerationInferenceResult) (input : Str)
      (m : SequenceGenerationInferenceResult),
      mergeGenerationWith matchFn tok ws ctx windows grs input = some m →
      grs.length = windows.length ∧
      ∃ pieces, (grs.zip windows).mapM
          (fun p => windowPiece matchFn tok ws ctx input p.1 p.2) = some pieces ∧
        m = ⟨tok.bosId :: (pieces.map Prod.fst).flatten ++ [tok.eosId],
             0 :: (pieces.map Prod.snd).flatten ++ [0]⟩ := by
  intro matchFn tok ws ctx windows grs input m hm
  simp only [mergeGenerationWith] at hm
  split at hm
  case isFalse => exact absurd hm (by simp)
  rename_i hcount
  refine ⟨hcount, ?_⟩
  split at hm
  case h_2 => exact absurd hm (by simp)
  rename_i pieces hpieces
  injection hm with hm
  exact ⟨pieces, hpieces, hm.symm⟩

/-- C7: when the adapter returned ranked beam lists, the generation merge
first reduces every window to its top-ranked (rank 0) candidate — merging
the beam lists equals merging the top candidates — and a successful
multi-window generation merge is exactly the concatenation, in window
order, of each window's matched core slice of token ids and log
probabilities, wrapped with a begin and an end marker whose log
probabilities are exactly 0. -/
theorem c7_generation_merge :
    (∀ (tok : CharTok) (matchFn : MatchFn) (ws ctx : Nat) (input : Str)
        (beams : List (List SequenceGenerationInferenceResult))
        (tops : List SequenceGenerationInferenceResult),
      beams.mapM List.head? = some tops →
      mergeInferenceResults tok matchFn ws ctx (beams.map .genBeams) input
        = mergeInferenceResults tok matchFn ws ctx (tops.map .gen) input) ∧
    (∀ (matchFn : MatchFn) (tok : CharTok) (ws ctx : Nat) (windows : List Nat)
        (grs : List SequenceGenerationInferenceResult) (input : Str)
        (m : SequenceGenerationInferenceResult),
      mergeGenerationWith matchFn tok ws ctx windows grs input = some m →
      grs.length = windows.length ∧
      ∃ pieces, (grs.zip windows).mapM
          (fun p => windowPiece matchFn tok ws ctx input p.1 p.2) = some pieces ∧
        m = ⟨tok.bosId :: (pieces.map Prod.fst).flatten ++ [tok.eosId],
             0 :: (pieces.map Prod.snd).flatten ++ [0]⟩) := by
  constructor
  · intro tok matchFn ws ctx input beams tops h
    cases beams with
    | nil =>
      simp only [List.mapM_nil] at h
      injection h with h
      subst h
      rfl
    | cons b bs =>
      obtain ⟨t, ts, htop⟩ : ∃ t ts, tops = t :: ts := by
        rw [List.mapM_cons] at h
        cases hh : b.head? with
        | none => rw [hh] at h; simp at h
        | some t =>
          rw [hh] at h
          cases hrest : bs.mapM List.head? with
          | none => rw [hrest] at h; simp at h
          | some ts =>
            rw [hrest] at h
            simp at h
            exact ⟨t, ts, h.symm⟩
      subst htop
      have hred := reduceBeams_tops (b :: bs) (t :: ts) h
      show (match reduceBeams ((b :: bs).map AdapterResult.genBeams) with
        | some rs' => mergeGenerationReduced matchFn tok ws ctx rs' input
        | none => none) = _
      rw [hred]
      rfl
  · exact mergeGenerationWith_structure


theorem c7_witness :
    mergeInferenceResults tok1 mf0 1 0 ([[g0, g0b], [g1]].map .genBeams) ['a', 'b']
      = mergeInferenceResults tok1 mf0 1 0 ([g0, g1].map .gen) ['a', 'b'] ∧
    ([g0, g1].length = (sliding_windows (['a', 'b'] : Str).length 1).length ∧
      ∃ pieces, ([g0, g1].zip (sliding_windows (['a', 'b'] : Str).length 1)).mapM
          (fun p => windowPiece mf0 tok1 1 0 ['a', 'b'] p.1 p.2) = some pieces ∧
        (⟨[8, 5, 6, 9], [0, 7, 2, 0]⟩ : SequenceGenerationInferenceResult) =
          ⟨tok1.bosId :: (pieces.map Prod.fst).flatten ++ [tok1.eosId],
           0 :: (pieces.map Prod.snd).flatten ++ [0]⟩) :=
  ⟨c7_generation_merge.1 tok1 mf0 1 0 ['a', 'b'] [[g0, g0b], [g1]] [g0, g1] rfl,
   c7_generation_merge.2 mf0 tok1 1 0 (sliding_windows (['a', 'b'] : Str).length 1)
     [g0, g1] ['a', 'b'] _ rfl⟩

/-! ### C8 -/

theorem entryNoSpacesFlag_true (e : BatchEntry) : entryNoSpacesFlag e = true := by
  simp [entryNoSpacesFlag, pyIn, entryTupleVals, pyEq]

theorem chunkList_flatten_le {α : Type*} (n : Nat) :
    ∀ (k : Nat) (l : List α), l.length ≤ k → (chunkList n l).flatten = l := by
  intro k
  induction k with
  | zero =>
    intro l h
    have hl : l = [] := List.eq_nil_of_length_eq_zero (by omega)
    subst hl
    simp [chunkList]
  | succ k ih =>
    intro l h
    cases l with
    | nil => simp [chunkList]
    | cons x xs =>
      simp only [chunkList, List.flatten_cons]
      rw [ih (xs.drop (n - 1)) (by simp only [List.length_drop]; simp at h; omega)]
      simp only [List.cons_append, List.take_append_drop]

theorem chunkList_flatten {α : Type*} (n : Nat) (l : List α) :
    (chunkList n l).flatten = l :=
  chunkList_flatten_le n l.length l le_rfl

theorem zip_map_foldl {α β γ : Type*} (f : α → β) (w : γ → α → β → γ) :
    ∀ (l : List α) (init : γ),
      (l.zip (l.map f)).foldl (fun acc q => w acc q.1 q.2) init
        = l.foldl (fun acc e => w acc e (f e)) init := by
  intro l
  induction l with
  | nil => intro init; rfl
  | cons x xs ih =>
    intro init
    simp only [List.map_cons, List.zip_cons_cons, List.foldl_cons]
    exact ih _

theorem runBatch_foldl (mode : ModelType) (g : Adapter) (inputs : List Str)
    (st : ResultStore) (batch : List BatchEntry) :
    runBatch mode g inputs st batch
      = batch.foldl (writeEntry mode g inputs) st := by
  unfold runBatch writeEntry
  exact zip_map_foldl _ (fun acc e r => storeWrite acc e.inputIdx e.position r) batch st

theorem runBatches_eq_foldl (mode : ModelType) (g : Adapter) (inputs : List Str) :
    ∀ (chunks : List (List BatchEntry)) (st : ResultStore),
      runBatches mode g inputs st chunks
        = chunks.flatten.foldl (writeEntry mode g inputs) st := by
  intro chunks
  induction chunks with
  | nil => intro st; rfl
  | cons c cs ih =>
    intro st
    show runBatches mode g inputs (runBatch mode g inputs st c) cs = _
    rw [ih, List.flatten_cons, List.foldl_append, runBatch_foldl]

theorem foldl_writeEntry_lookup (mode : ModelType) (g : Adapter) (inputs : List Str) :
    ∀ (entries : List BatchEntry) (i p : Nat),
      (entries.foldl (writeEntry mode g inputs) emptyStore) i p
        = (entries.reverse.find?
            (fun e => decide (e.inputIdx = i ∧ e.position = p))).map
            (entryValue mode g inputs) := by
  intro entries
  induction entries using List.reverseRecOn with
  | nil => intro i p; rfl
  | append_singleton l e ih =>
    intro i p
    rw [List.foldl_append]
    simp only [List.foldl_cons, List.foldl_nil]
    rw [List.reverse_append]
    simp only [List.reverse_singleton, List.singleton_append]
    show (storeWrite (l.foldl (writeEntry mode g inputs) emptyStore)
        e.inputIdx e.position (g (entrySeq inputs e) (entryKwargs mode inputs e))) i p = _
    unfold storeWrite
    by_cases hip : e.inputIdx = i ∧ e.position = p
    · rw [if_pos hip]
      rw [List.find?_cons_of_pos _ (by simp [hip])]
      rfl
    · rw [if_neg hip]
      rw [List.find?_cons_of_neg _ (by simpa using hip)]
      exact ih i p

theorem find?_eq_of_unique {α : Type*} (p : α → Bool) (l l' : List α)
    (hmem : ∀ x, x ∈ l ↔ x ∈ l')
    (hu : ∀ a b, a ∈ l → b ∈ l → p a → p b → a = b) :
    l.find? p = l'.find? p := by
  cases h1 : l.find? p with
  | none =>
    cases h2 : l'.find? p with
    | none => rfl
    | some b =>
      have hb := List.find?_some h2
      have hbm := (hmem b).mpr (List.mem_of_find?_eq_some h2)
      exact absurd hb (by simpa using (List.find?_eq_none.mp h1) b hbm)
  | some a =>
    have ha := List.find?_some h1
    have ham := List.mem_of_find?_eq_some h1
    cases h2 : l'.find? p with
    | none =>
      exact absurd ha (by simpa using (List.find?_eq_none.mp h2) a ((hmem a).mp ham))
    | some b =>
      have hb := List.find?_some h2
      have hbm := (hmem b).mpr (List.mem_of_find?_eq_some h2)
      rw [hu a b ham hbm ha hb]

theorem find?_mem_unique {α : Type*} (p : α → Bool) (l : List α) (e : α)
    (he : e ∈ l) (hpe : p e = true)
    (hu : ∀ a b, a ∈ l → b ∈ l → p a → p b → a = b) :
    l.find? p = some e := by
  cases h : l.find? p with
  | none => exact absurd hpe (by simpa using (List.find?_eq_none.mp h) e he)
  | some a =>
    rw [hu a e (List.mem_of_find?_eq_some h) he (List.find?_some h) hpe]

theorem planInput_mem_char (maxL ws ctx idx : Nat) (ipt : Str) :
    ∀ e ∈ planInput maxL ws ctx idx ipt,
      e.inputIdx = idx ∧ (planInput maxL ws ctx idx ipt)[e.position]? = some e := by
  intro e he
  simp only [planInput] at he ⊢
  by_cases h : ipt.length ≤ maxL
  · rw [if_pos h] at he ⊢
    rcases List.mem_singleton.mp he with rfl
    exact ⟨rfl, rfl⟩
  · rw [if_neg h] at he ⊢
    rcases List.mem_map.mp he with ⟨q, hq, rfl⟩
    obtain ⟨i, w⟩ := q
    have hiw := List.mem_enum hq
    refine ⟨rfl, ?_⟩
    rw [List.getElem?_map, List.getElem?_enum]
    rw [List.getElem?_eq_getElem hiw.1]
    simp only [Option.map_some']
    rw [← hiw.2]

theorem planInput_fields (maxL ws ctx idx : Nat) (ipt : Str) (p : Nat)
    (hp : p < (planInput maxL ws ctx idx ipt).length) :
    (planInput maxL ws ctx idx ipt)[p].inputIdx = idx ∧
    (planInput maxL ws ctx idx ipt)[p].position = p := by
  simp only [planInput] at hp ⊢
  by_cases h : ipt.length ≤ maxL
  · simp only [if_pos h] at hp ⊢
    simp only [List.length_singleton] at hp
    have hp0 : p = 0 := by omega
    subst hp0
    exact ⟨rfl, rfl⟩
  · simp only [if_neg h] at hp ⊢
    rw [List.getElem_map]
    have hp' : p < ((sliding_windows ipt.length ws).enum).length := by
      simpa using hp
    rw [List.getElem_enum]
    exact ⟨rfl, rfl⟩

theorem allBatches_key_unique (maxL ws ctx : Nat) (inputs : List Str) :
    ∀ a ∈ allBatches maxL ws ctx inputs, ∀ b ∈ allBatches maxL ws ctx inputs,
      a.inputIdx = b.inputIdx → a.position = b.position → a = b := by
  intro a ha b hb hidx hpos
  unfold allBatches at ha hb
  rcases List.mem_flatMap.mp ha with ⟨qa, hqa, hma⟩
  rcases List.mem_flatMap.mp hb with ⟨qb, hqb, hmb⟩
  obtain ⟨ia, sa⟩ := qa
  obtain ⟨ib, sb⟩ := qb
  have hca := planInput_mem_char maxL ws ctx ia sa a hma
  have hcb := planInput_mem_char maxL ws ctx ib sb b hmb
  have hia := List.mem_enum hqa
  have hib := List.mem_enum hqb
  have hii : ia = ib := by rw [← hca.1, ← hcb.1, hidx]
  subst hii
  have hss : sa = sb := by rw [hia.2, hib.2]
  subst hss
  have h1 := hca.2
  have h2 := hcb.2
  rw [hpos] at h1
  rw [h1] at h2
  injection h2

theorem allBatches_entry_exists (maxL ws ctx : Nat) (inputs : List Str)
    (i : Nat) (ipt : Str) (hi : inputs[i]? = some ipt) (p : Nat)
    (hp : p < (planInput maxL ws ctx i ipt).length) :
    ∃ e, (planInput maxL ws ctx i ipt)[p]? = some e ∧ e.inputIdx = i ∧
      e.position = p ∧ e ∈ allBatches maxL ws ctx inputs := by
  refine ⟨(planInput maxL ws ctx i ipt)[p], List.getElem?_eq_getElem hp,
    (planInput_fields maxL ws ctx i ipt p hp).1,
    (planInput_fields maxL ws ctx i ipt p hp).2, ?_⟩
  unfold allBatches
  rw [List.mem_flatMap]
  rcases List.getElem?_eq_some.mp hi with ⟨hilen, hival⟩
  refine ⟨(i, ipt), ?_, List.getElem_mem hp⟩
  have henum : inputs.enum.get ⟨i, by simpa using hilen⟩ = (i, inputs[i]) :=
    List.getElem_enum inputs i (by simpa using hilen)
  rw [← hival]
  rw [← henum]
  exact List.getElem_mem _

theorem finalStore_canonical (mode : ModelType) (g : Adapter)
    (maxL ws ctx : Nat) (inputs : List Str) (bs : Nat) (sort : Bool) :
    finalStore mode g maxL ws ctx inputs bs sort = fun i p =>
      ((allBatches maxL ws ctx inputs).reverse.find?
          (fun e => decide (e.inputIdx = i ∧ e.position = p))).map
        (entryValue mode g inputs) := by
  funext i p
  unfold finalStore
  rw [runBatches_eq_foldl, chunkList_flatten, foldl_writeEntry_lookup]
  unfold orderedBatches
  by_cases hs : sort
  · rw [if_pos hs]
    congr 1
    apply find?_eq_of_unique
    · intro x
      rw [List.mem_reverse, List.mem_reverse]
      exact (List.perm_insertionSort _ _).mem_iff
    · intro a b hma hmb hpa hpb
      have ha' : a ∈ allBatches maxL ws ctx inputs :=
        (List.perm_insertionSort _ _).mem_iff.mp (List.mem_reverse.mp hma)
      have hb' : b ∈ allBatches maxL ws ctx inputs :=
        (List.perm_insertionSort _ _).mem_iff.mp (List.mem_reverse.mp hmb)
      have hka := of_decide_eq_true hpa
      have hkb := of_decide_eq_true hpb
      exact allBatches_key_unique maxL ws ctx inputs a ha' b hb'
        (by rw [hka.1, hkb.1]) (by rw [hka.2, hkb.2])
  · rw [if_neg hs]

theorem finalStore_slot (mode : ModelType) (g : Adapter)
    (maxL ws ctx : Nat) (inputs : List Str) (bs : Nat) (sort : Bool)
    (i : Nat) (ipt : Str) (hi : inputs[i]? = some ipt) (p : Nat)
    (hp : p < (planInput maxL ws ctx i ipt).length) :
    finalStore mode g maxL ws ctx inputs bs sort i p
      = ((planInput maxL ws ctx i ipt)[p]?).map (entryValue mode g inputs) := by
  rw [finalStore_canonical]
  obtain ⟨e, hpe, hei, hep, hemem⟩ :=
    allBatches_entry_exists maxL ws ctx inputs i ipt hi p hp
  show Option.map (entryValue mode g inputs)
      (List.find? (fun e => decide (e.inputIdx = i ∧ e.position = p))
        (allBatches maxL ws ctx inputs).reverse)
    = ((planInput maxL ws ctx i ipt)[p]?).map (entryValue mode g inputs)
  rw [hpe]
  rw [find?_mem_unique _ _ e (List.mem_reverse.mpr hemem)
    (by simp [hei, hep])
    (by
      intro a b hma hmb hpa hpb
      have hka := of_decide_eq_true hpa
      have hkb := of_decide_eq_true hpb
      exact allBatches_key_unique maxL ws ctx inputs a (List.mem_reverse.mp hma)
        b (List.mem_reverse.mp hmb) (by rw [hka.1, hkb.1]) (by rw [hka.2, hkb.2]))]

theorem gatherInput_of_lookup :
    ∀ (vs : List AdapterResult) (st : Nat → Option AdapterResult),
      (∀ q, q < vs.length → st q = vs[q]?) →
      gatherInput st vs.length = some vs := by
  intro vs
  induction vs using List.reverseRecOn with
  | nil => intro st h; rfl
  | append_singleton l v ih =>
    intro st h
    have hlen : (l ++ [v]).length = l.length + 1 := by simp
    rw [hlen]
    have h1 : gatherInput st l.length = some l := by
      apply ih
      intro q hq
      rw [h q (by simp; omega)]
      rw [List.getElem?_append]
      rw [if_pos hq]
    have h2 : st l.length = some v := by
      rw [h l.length (by simp)]
      exact List.getElem?_concat_length l v
    show (match gatherInput st l.length, st l.length with
          | some l', some r => some (l' ++ [r])
          | _, _ => none) = some (l ++ [v])
    rw [h1, h2]

theorem mapM_congr_mem {α β : Type*} (f g : α → Option β) :
    ∀ (l : List α), (∀ x ∈ l, f x = g x) → l.mapM f = l.mapM g := by
  intro l
  induction l with
  | nil => intro h; rfl
  | cons x xs ih =>
    intro h
    rw [List.mapM_cons, List.mapM_cons, h x (by simp),
      ih (fun y hy => h y (by simp [hy]))]

theorem repairTextRawMerged_canonical (mode : ModelType) (g : Adapter) (tok : CharTok)
    (matchFn : MatchFn) (maxL ws ctx : Nat) (inputs : List Str) (bs : Nat)
    (sort : Bool) (hbs : 0 < bs) :
    repairTextRawMerged mode g tok matchFn maxL ws ctx inputs bs sort
      = inputs.enum.mapM (fun q =>
          mergeInferenceResults tok matchFn ws ctx
            ((planInput maxL ws ctx q.1 q.2).map (entryValue mode g inputs)) q.2) := by
  unfold repairTextRawMerged
  rw [if_neg (by omega)]
  apply mapM_congr_mem
  intro q hq
  obtain ⟨i, ipt⟩ := q
  have hiq := List.mem_enum hq
  have hi : inputs[i]? = some ipt := by
    rw [List.getElem?_eq_getElem hiq.1]
    exact congrArg some hiq.2.symm
  have hg : gatherInput
      (finalStore mode g maxL ws ctx inputs bs sort i)
      (planInput maxL ws ctx i ipt).length
      = some ((planInput maxL ws ctx i ipt).map (entryValue mode g inputs)) := by
    have hlen : ((planInput maxL ws ctx i ipt).map (entryValue mode g inputs)).length
        = (planInput maxL ws ctx i ipt).length := by simp
    rw [← hlen]
    apply gatherInput_of_lookup
    intro p hp
    rw [hlen] at hp
    rw [finalStore_slot mode g maxL ws ctx inputs bs sort i ipt hi p hp]
    rw [List.getElem?_map]
  simp only [hg]

/-- C8: for a fixed list of inputs and a fixed (deterministic,
order-preserving, per-substring) adapter, the corrected outputs of the
`repair_text` list pipeline are identical for `sort_by_length` true and
false and for every positive batch size: results are routed back by
`(input_index, window_position)`, so batch dispatch order never changes the
merged result. -/
theorem c8_batching_invariance :
    ∀ (mode : ModelType) (g : Adapter) (tok : CharTok) (matchFn : MatchFn)
      (maxL ws ctx : Nat) (inputs : List Str) (bs₁ bs₂ : Nat) (s₁ s₂ : Bool),
      0 < bs₁ → 0 < bs₂ →
      repairTextList mode g tok matchFn maxL ws ctx inputs bs₁ s₁
        = repairTextList mode g tok matchFn maxL ws ctx inputs bs₂ s₂ := by
  intro mode g tok matchFn maxL ws ctx inputs bs₁ bs₂ s₁ s₂ h₁ h₂
  unfold repairTextList
  simp only [repairTextRawMerged_canonical mode g tok matchFn maxL ws ctx _ bs₁ s₁ h₁,
    repairTextRawMerged_canonical mode g tok matchFn maxL ws ctx _ bs₂ s₂ h₂]

theorem c8_witness :
    0 < 1 ∧ 0 < 2 ∧
    repairTextList .transformer g8 tok1 mf0 10 2 1 [['a', 'b']] 1 true
      = repairTextList .transformer g8 tok1 mf0 10 2 1 [['a', 'b']] 2 false :=
  ⟨by decide, by decide,
   c8_batching_invariance .transformer g8 tok1 mf0 10 2 1 [['a', 'b']] 1 2 true false
     (by decide) (by decide)⟩

/-! ### C9 -/

theorem mapM_map_comp {α β γ : Type*} (g : α → β) (f : β → Option γ) :
    ∀ (l : List α), (l.map g).mapM f = l.mapM (fun a => f (g a)) := by
  intro l
  induction l with
  | nil => rfl
  | cons x xs ih =>
    rw [List.map_cons, List.mapM_cons, List.mapM_cons, ih]

theorem mapM_length_opt {α β : Type*} (f : α → Option β) :
    ∀ (l : List α) (rs : List β), l.mapM f = some rs → rs.length = l.length := by
  intro l
  induction l with
  | nil =>
    intro rs h
    simp only [List.mapM_nil] at h
    injection h with h
    subst h
    rfl
  | cons x xs ih =>
    intro rs h
    rw [List.mapM_cons] at h
    cases hx : f x with
    | none => rw [hx] at h; simp at h
    | some b =>
      rw [hx] at h
      cases hxs : xs.mapM f with
      | none => rw [hxs] at h; simp at h
      | some bs =>
        rw [hxs] at h
        simp only [Option.pure_def, Option.bind_some] at h
        simp at h
        subst h
        simp [ih bs hxs]

theorem mapM_zip_fuse {α β γ : Type*} (f : α → Option β) (h2 : β → α → Option γ) :
    ∀ (l : List α) (rs : List β), l.mapM f = some rs →
      (rs.zip l).mapM (fun p => h2 p.1 p.2)
        = l.mapM (fun a => (f a).bind (fun b => h2 b a)) := by
  intro l
  induction l with
  | nil =>
    intro rs h
    simp only [List.mapM_nil] at h
    injection h with h
    subst h
    rfl
  | cons x xs ih =>
    intro rs h
    rw [List.mapM_cons] at h
    cases hx : f x with
    | none => rw [hx] at h; simp at h
    | some b =>
      rw [hx] at h
      cases hxs : xs.mapM f with
      | none => rw [hxs] at h; simp at h
      | some bs =>
        rw [hxs] at h
        simp at h
        subst h
        rw [List.zip_cons_cons, List.mapM_cons, List.mapM_cons]
        simp only [hx, Option.some_bind]
        rw [ih bs hxs]

theorem mapM_bind_none {α β γ : Type*} (f : α → Option β) (h2 : β → α → Option γ) :
    ∀ (l : List α), l.mapM f = none →
      l.mapM (fun a => (f a).bind (fun b => h2 b a)) = none := by
  intro l
  induction l with
  | nil =>
    intro h
    simp only [List.mapM_nil] at h
    exact absurd h (by simp)
  | cons x xs ih =>
    intro h
    rw [List.mapM_cons] at h
    rw [List.mapM_cons]
    cases hx : f x with
    | none => simp [hx]
    | some b =>
      rw [hx] at h
      cases hxs : xs.mapM f with
      | none =>
        simp only [hx, Option.some_bind]
        rw [ih hxs]
        cases h2 b x <;> rfl
      | some bs => rw [hxs] at h; simp at h

theorem match_mapM_zip_fuse {α β γ : Type*} (f : α → Option β) (h2 : β → α → Option γ)
    (l : List α) :
    (match l.mapM f with
     | none => none
     | some rs => (rs.zip l).mapM (fun p => h2 p.1 p.2))
      = l.mapM (fun a => (f a).bind (fun b => h2 b a)) := by
  cases hM : l.mapM f with
  | none => exact (mapM_bind_none f h2 l hM).symm
  | some rs => exact mapM_zip_fuse f h2 l rs hM

theorem enumFrom_mapM_congr {α β : Type*} (F : Nat → α → Option β) (G : α → Option β) :
    ∀ (l : List α) (k : Nat),
      (∀ i x, l[i]? = some x → F (k + i) x = G x) →
      (l.enumFrom k).mapM (fun q => F q.1 q.2) = l.mapM G := by
  intro l
  induction l with
  | nil => intro k h; rfl
  | cons x xs ih =>
    intro k h
    rw [List.enumFrom_cons, List.mapM_cons, List.mapM_cons]
    have h0 : F k x = G x := by
      have hx := h 0 x (by simp)
      try rw [Nat.add_zero] at hx
      exact hx
    show (F k x).bind _ = (G x).bind _
    rw [h0]
    rw [ih (k + 1) (fun i x' hx => by
      have hh := h (i + 1) x' (by rw [getElem?_cons_succ']; exact hx)
      rwa [show k + (i + 1) = (k + 1) + i from by omega] at hh)]

theorem planInput_reindex (maxL ws ctx idx : Nat) (ipt : Str) :
    planInput maxL ws ctx idx ipt
      = (planInput maxL ws ctx 0 ipt).map
          (fun e => ⟨idx, e.fromIdx, e.toIdx, e.position⟩) := by
  simp only [planInput]
  by_cases h : ipt.length ≤ maxL
  · simp [h]
  · simp only [if_neg h, List.map_map]
    apply List.map_congr_left
    intro p hp
    rfl

theorem plan_map_value (mode : ModelType) (g : Adapter) (maxL ws ctx : Nat)
    (inputs : List Str) (i : Nat) (ipt : Str) (hi : inputs[i]? = some ipt) :
    (planInput maxL ws ctx i ipt).map (entryValue mode g inputs)
      = (planInput maxL ws ctx 0 ipt).map (fun e =>
          g (pySlice ipt e.fromIdx e.toIdx)
            (match mode with
             | .encoderWithHead => .noSpaces true
             | .transformer => .inputString (stripSpaces (pySlice ipt e.fromIdx e.toIdx)))) := by
  rw [planInput_reindex maxL ws ctx i ipt, List.map_map]
  apply List.map_congr_left
  intro e he
  have hgd : inputs.getD i [] = ipt := by
    rw [List.getD_eq_getElem?_getD, hi]
    rfl
  show entryValue mode g inputs ⟨i, e.fromIdx, e.toIdx, e.position⟩ = _
  unfold entryValue entrySeq entryKwargs
  cases mode with
  | encoderWithHead => simp only [entryNoSpacesFlag_true, hgd]
  | transformer => simp only [entrySeq, hgd]

theorem processOne_eq_bind (mode : ModelType) (g : Adapter) (tok : CharTok)
    (matchFn : MatchFn) (maxL ws ctx : Nat) (ipt : Str) :
    processOne mode g tok matchFn maxL ws ctx ipt
      = (processOneMerged mode g tok matchFn maxL ws ctx ipt).bind
          (fun ir => inferenceResultToStr tok ir ipt) := by
  unfold processOne
  cases h : processOneMerged mode g tok matchFn maxL ws ctx ipt <;> rfl

theorem repairTextList_processOne (mode : ModelType) (g : Adapter) (tok : CharTok)
    (matchFn : MatchFn) (maxL ws ctx : Nat) (inputs : List Str) (bs : Nat)
    (sort : Bool) (hbs : 0 < bs) :
    repairTextList mode g tok matchFn maxL ws ctx inputs bs sort
      = inputs.mapM (fun s =>
          processOne mode g tok matchFn maxL ws ctx (clean_sequence s)) := by
  unfold repairTextList
  simp only [repairTextRawMerged_canonical mode g tok matchFn maxL ws ctx _ bs sort hbs]
  have henum : (inputs.map clean_sequence).enum
      = List.enumFrom 0 (inputs.map clean_sequence) := rfl
  rw [henum]
  have hcong : ∀ (i : Nat) (x : Str), (inputs.map clean_sequence)[i]? = some x →
      mergeInferenceResults tok matchFn ws ctx
          ((planInput maxL ws ctx (0 + i) x).map
            (entryValue mode g (inputs.map clean_sequence))) x
        = processOneMerged mode g tok matchFn maxL ws ctx x := by
    intro i x hx
    have hplan := plan_map_value mode g maxL ws ctx (inputs.map clean_sequence) i x hx
    rw [Nat.zero_add, hplan]
    rfl
  rw [enumFrom_mapM_congr
    (fun idx ipt => mergeInferenceResults tok matchFn ws ctx
      ((planInput maxL ws ctx idx ipt).map
        (entryValue mode g (inputs.map clean_sequence))) ipt)
    (fun ipt => processOneMerged mode g tok matchFn maxL ws ctx ipt)
    (inputs.map clean_sequence) 0 hcong]
  have hR : inputs.mapM (fun s =>
        processOne mode g tok matchFn maxL ws ctx (clean_sequence s))
      = (inputs.map clean_sequence).mapM
          (fun ipt => (processOneMerged mode g tok matchFn maxL ws ctx ipt).bind
            (fun ir => inferenceResultToStr tok ir ipt)) :=
    (mapM_map_comp clean_sequence
        (fun ipt => processOne mode g tok matchFn maxL ws ctx ipt) inputs).symm.trans
      (mapM_congr_mem _ _ _
        (fun x _ => processOne_eq_bind mode g tok matchFn maxL ws ctx x))
  rw [hR]
  cases hM : (inputs.map clean_sequence).mapM
      (fun ipt => processOneMerged mode g tok matchFn maxL ws ctx ipt) with
  | none =>
    exact (mapM_bind_none _ _ _ hM).symm
  | some irs =>
    exact mapM_zip_fuse _ _ _ irs hM

/-- C9: `repair_text` accepts either one string or a non-empty list of
strings and returns the same shape — a string for a string input, a list
with one output per input in order for a list input (each output the
per-input pipeline applied to its cleaned input) — while an empty list or a
wrong-typed input is rejected (no planning happens). -/
theorem c9_shape :
    ∀ (mode : ModelType) (g : Adapter) (tok : CharTok) (matchFn : MatchFn)
      (maxL ws ctx bs : Nat) (sort : Bool), 0 < bs →
      (∀ s : Str,
        repair_text mode g tok matchFn maxL ws ctx (.str s) bs sort
          = (processOne mode g tok matchFn maxL ws ctx (clean_sequence s)).map
              PyOutput.str) ∧
      (∀ l : List Str, l ≠ [] →
        repair_text mode g tok matchFn maxL ws ctx (.list l) bs sort
          = (l.mapM (fun s =>
              processOne mode g tok matchFn maxL ws ctx (clean_sequence s))).map
              PyOutput.list) ∧
      (∀ (l outs : List Str),
        repair_text mode g tok matchFn maxL ws ctx (.list l) bs sort
            = some (.list outs) → outs.length = l.length) ∧
      (repair_text mode g tok matchFn maxL ws ctx (.list []) bs sort = none) ∧
      (repair_text mode g tok matchFn maxL ws ctx .other bs sort = none) := by
  intro mode g tok matchFn maxL ws ctx bs sort hbs
  have hlist : ∀ l : List Str, l ≠ [] →
      repair_text mode g tok matchFn maxL ws ctx (.list l) bs sort
        = (l.mapM (fun s =>
            processOne mode g tok matchFn maxL ws ctx (clean_sequence s))).map
            PyOutput.list := by
    intro l hl
    cases l with
    | nil => exact absurd rfl hl
    | cons x xs =>
      show (repairTextList mode g tok matchFn maxL ws ctx (x :: xs) bs sort).map
          PyOutput.list = _
      rw [repairTextList_processOne mode g tok matchFn maxL ws ctx (x :: xs) bs sort hbs]
  refine ⟨?_, hlist, ?_, rfl, rfl⟩
  · intro s
    show (match repairTextList mode g tok matchFn maxL ws ctx [s] bs sort with
          | some outs => outs.head?.map PyOutput.str
          | none => none) = _
    rw [repairTextList_processOne mode g tok matchFn maxL ws ctx [s] bs sort hbs]
    cases hPC : processOne mode g tok matchFn maxL ws ctx (clean_sequence s) with
    | none => rw [List.mapM_cons, hPC]; rfl
    | some o => rw [List.mapM_cons, hPC]; rfl
  · intro l outs h
    cases l with
    | nil =>
      rw [show repair_text mode g tok matchFn maxL ws ctx (.list []) bs sort = none
        from rfl] at h
      exact absurd h (by simp)
    | cons x xs =>
      rw [hlist (x :: xs) (by simp)] at h
      cases hM : (x :: xs).mapM (fun s =>
          processOne mode g tok matchFn maxL ws ctx (clean_sequence s)) with
      | none => rw [hM] at h; simp at h
      | some rs =>
        rw [hM] at h
        simp only [Option.map_some'] at h
        injection h with h
        injection h with h
        subst h
        exact mapM_length_opt _ _ _ hM

theorem c9_witness :
    (repair_text .transformer g8 tok1 mf0 10 2 1 (.str ['a']) 1 true
      = (processOne .transformer g8 tok1 mf0 10 2 1 (clean_sequence ['a'])).map
          PyOutput.str) ∧
    repair_text .transformer g8 tok1 mf0 10 2 1 (.list []) 1 true = none :=
  ⟨(c9_shape .transformer g8 tok1 mf0 10 2 1 1 true (by decide)).1 ['a'],
   (c9_shape .transformer g8 tok1 mf0 10 2 1 1 true (by decide)).2.2.2.1⟩
